import Mathlib

/-!
# dll_strings.c : a doubly linked list of heap-allocated strings

A shallow embedding of `src/dll_strings.c`.

* Memory is typed: a store of `Node` cells (the `malloc`ed nodes) and a store of
  `DList` headers (the caller-owned `DList` variables).  A pointer is an
  `Option Nat`, `none` being `NULL`.
* Every operation takes the memory and returns `Option` of the new memory and
  its C result.  `none` means that the C execution has no defined result: it
  reads, writes or frees a cell that is not live, or a traversal does not end.
* The text owned by a node (`char *s`) is stored in the node as
  `Option String`: `none` is the `NULL` string, `some t` an owned copy of the
  characters before the terminator.
* `malloc` is a parameter of `dlist_insert_tail`: any function that picks a
  cell which is not live.  Memory is unbounded, so `malloc` never returns
  `NULL` and `die` is never reached.
* `dlist_print` gives the text it writes to the standard output.
-/

namespace DllStrings

/-! ## Data model -/

/-- A pointer: `none` is `NULL`, `some a` the address of cell `a`. -/
abbrev Ptr := Option Nat

/-- The C `struct Node`: owned text, previous and next links. -/
structure Node where
  s : Option String
  prev : Ptr
  next : Ptr
deriving DecidableEq

/-- The C `DList` header.  `size` is a `size_t`; it is kept as a natural
number, its increment cannot wrap on a real machine (a list of `2^64 - 1` live
nodes does not fit an address space), its decrement wraps at zero, see
`size_dec`. -/
structure DList where
  head : Ptr
  tail : Ptr
  size : Nat
deriving DecidableEq

/-- The node store: cell `a` is live when it holds `some node`. -/
abbrev Heap := List (Option Node)

/-- The memory: node cells and list headers. -/
structure Mem where
  nodes : List (Option Node)
  lists : List DList
deriving DecidableEq

/-- Reading a cell of the node store: `none` when the cell is not live. -/
def lookup (h : Heap) (a : Nat) : Option Node := (h[a]?).getD none

/-- Writing a cell of the node store (the store grows when `a` is beyond it). -/
def store (h : Heap) (a : Nat) (v : Option Node) : Heap :=
  (h ++ List.replicate (a + 1 - h.length) none).set a v

/-- The node at address `a`, when that cell is live. -/
def Mem.node (m : Mem) (a : Nat) : Option Node := lookup m.nodes a

/-- Memory with node cell `a` overwritten (`none` frees the cell). -/
def Mem.setNode (m : Mem) (a : Nat) (v : Option Node) : Mem :=
  { m with nodes := store m.nodes a v }

/-- The header at address `a`, when there is one. -/
def Mem.list (m : Mem) (a : Nat) : Option DList := m.lists[a]?

/-- Memory with header `a` overwritten. -/
def Mem.setList (m : Mem) (a : Nat) (l : DList) : Mem :=
  { m with lists := m.lists.set a l }

/-- An allocator picks the address of the next node from the node store. -/
abbrev Allocator := Heap → Nat

/-- The contract of `malloc`: the cell it returns is not live. -/
def Allocator.Fresh (malloc : Allocator) : Prop :=
  ∀ h : Heap, lookup h (malloc h) = none

/-- A first-fit allocator: the lowest cell that is not live. -/
def first_fit : Allocator := fun h => h.findIdx (fun c => c.isNone)

/-- The largest `size_t`. -/
def SIZE_MAX : Nat := 2 ^ 64 - 1

/-- The C `size--` on a `size_t`: wraps to `SIZE_MAX` at zero. -/
def size_dec (n : Nat) : Nat := if n = 0 then SIZE_MAX else n - 1

/-! ## The operations of `dll_strings.c` -/

/-- The C `strdup_safe`: `NULL` for `NULL`, else an owned copy of the text. -/
def strdup_safe (src : Option String) : Option String :=
  match src with
  | none => none
  | some t => some t

/-- The C `dlist_init`: writes an empty header. -/
def dlist_init (m : Mem) (list : Ptr) : Option Mem :=
  match list with
  | none => none
  | some lp =>
    match m.list lp with
    | none => none
    | some _ => some (m.setList lp ⟨none, none, 0⟩)

/-- The C `dlist_insert_tail`. -/
def dlist_insert_tail (malloc : Allocator) (m : Mem) (list : Ptr)
    (value : Option String) : Option (Mem × Ptr) :=
  let n := malloc m.nodes
  match list with
  | none => none
  | some lp =>
    match m.list lp with
    | none => none
    | some l =>
      -- n->s = strdup_safe(value); n->prev = list->tail; n->next = NULL;
      let m1 := m.setNode n (some ⟨strdup_safe value, l.tail, none⟩)
      -- if (list->tail) list->tail->next = n; else list->head = n;
      let linked : Option Mem :=
        match l.tail with
        | some t =>
          match m1.node t with
          | none => none
          | some tn => some (m1.setNode t (some { tn with next := some n }))
        | none => some (m1.setList lp { l with head := some n })
      match linked with
      | none => none
      | some m2 =>
        match m2.list lp with
        | none => none
        | some l2 =>
          -- list->tail = n; list->size++; return n;
          some (m2.setList lp { l2 with tail := some n, size := l2.size + 1 }, some n)

/-- The two tests of the loop body of `dlist_find_first`:
`cur->s && value && strcmp(cur->s, value) == 0`, then `!cur->s && !value`. -/
def value_matches (s value : Option String) : Bool :=
  if s.isSome && value.isSome && decide (s = value) then true
  else if s.isNone && value.isNone then true
  else false

/-- The loop of `dlist_find_first`, from `cur`. -/
def find_loop (m : Mem) (value : Option String) : Nat → Ptr → Option Ptr
  | 0, _ => none
  | _ + 1, none => some none
  | fuel + 1, some a =>
    match m.node a with
    | none => none
    | some nd =>
      if value_matches nd.s value then some (some a)
      else find_loop m value fuel nd.next

/-- The C `dlist_find_first`.  It takes a `const DList *`; the memory it
returns is the memory it was given.  The loop is given one step more than
there are node cells: a traversal that needs more visits a cell twice and
never ends. -/
def dlist_find_first (m : Mem) (list : Ptr) (value : Option String) :
    Option (Mem × Ptr) :=
  match list with
  | none => none
  | some lp =>
    match m.list lp with
    | none => none
    | some l =>
      match find_loop m value (m.nodes.length + 1) l.head with
      | none => none
      | some r => some (m, r)

/-- The first relinking of `dlist_delete_node`, for the node contents `nd`:
`if (n->prev) n->prev->next = n->next; else list->head = n->next;`. -/
def unlink_prev (m : Mem) (lp : Nat) (nd : Node) : Option Mem :=
  match nd.prev with
  | some p =>
    match m.node p with
    | none => none
    | some pn => some (m.setNode p (some { pn with next := nd.next }))
  | none =>
    match m.list lp with
    | none => none
    | some l => some (m.setList lp { l with head := nd.next })

/-- The second relinking of `dlist_delete_node`, for the node contents `nd`:
`if (n->next) n->next->prev = n->prev; else list->tail = n->prev;`. -/
def unlink_next (m : Mem) (lp : Nat) (nd : Node) : Option Mem :=
  match nd.next with
  | some q =>
    match m.node q with
    | none => none
    | some qn => some (m.setNode q (some { qn with prev := nd.prev }))
  | none =>
    match m.list lp with
    | none => none
    | some l => some (m.setList lp { l with tail := nd.prev })

/-- The C `dlist_delete_node`. -/
def dlist_delete_node (m : Mem) (list : Ptr) (n : Ptr) : Option (Mem × Int) :=
  match list, n with
  | none, _ => some (m, 0)
  | _, none => some (m, 0)
  | some lp, some a =>
    match m.node a with
    | none => none
    | some nd =>
      match unlink_prev m lp nd with
      | none => none
      | some m1 =>
        match m1.node a with
        | none => none
        | some nd1 =>
          match unlink_next m1 lp nd1 with
          | none => none
          | some m2 =>
            -- free(n->s); free(n); list->size--; return 1;
            match m2.node a with
            | none => none
            | some _ =>
              let m3 := m2.setNode a none
              match m3.list lp with
              | none => none
              | some l3 => some (m3.setList lp { l3 with size := size_dec l3.size }, 1)

/-- The C `dlist_delete_first_match`. -/
def dlist_delete_first_match (m : Mem) (list : Ptr) (value : Option String) :
    Option (Mem × Int) :=
  match dlist_find_first m list value with
  | none => none
  | some (m1, n) => dlist_delete_node m1 list n

/-- The loop of `dlist_clear`, from `cur`: frees the node and goes to the
next one read before the free. -/
def clear_loop : Nat → Mem → Ptr → Option Mem
  | 0, _, _ => none
  | _ + 1, m, none => some m
  | fuel + 1, m, some a =>
    match m.node a with
    | none => none
    | some nd => clear_loop fuel (m.setNode a none) nd.next

/-- The C `dlist_clear`. -/
def dlist_clear (m : Mem) (list : Ptr) : Option Mem :=
  match list with
  | none => none
  | some lp =>
    match m.list lp with
    | none => none
    | some l =>
      match clear_loop (m.nodes.length + 1) m l.head with
      | none => none
      | some m1 =>
        match m1.list lp with
        | none => none
        | some _ => some (m1.setList lp ⟨none, none, 0⟩)

/-! ## Traversals and well-formedness -/

/-- The traversal `for (cur = start; cur; cur = link(cur))` that the source
uses in `dlist_print`, `dlist_find_first` and `dlist_clear`, collecting the
addresses it visits. -/
def walk (link : Node → Ptr) (m : Mem) : Nat → Ptr → Option (List Nat)
  | 0, _ => none
  | _ + 1, none => some []
  | fuel + 1, some a =>
    match m.node a with
    | none => none
    | some nd => (walk link m fuel (link nd)).map (fun r => a :: r)

/-- The nodes met from `list->head` along `next`. -/
def forward_nodes (m : Mem) (lp : Nat) : Option (List Nat) :=
  match m.list lp with
  | none => none
  | some l => walk Node.next m (m.nodes.length + 1) l.head

/-- The nodes met from `list->tail` along `prev`. -/
def backward_nodes (m : Mem) (lp : Nat) : Option (List Nat) :=
  match m.list lp with
  | none => none
  | some l => walk Node.prev m (m.nodes.length + 1) l.tail

/-- The text stored at address `a` (`none` also when the cell is not live). -/
def text (m : Mem) (a : Nat) : Option String :=
  match m.node a with
  | none => none
  | some nd => nd.s

/-- The loop of `dlist_print` over `cur->s`, collecting the values. -/
def values_loop (m : Mem) : Nat → Ptr → Option (List (Option String))
  | 0, _ => none
  | _ + 1, none => some []
  | fuel + 1, some a =>
    match m.node a with
    | none => none
    | some nd => (values_loop m fuel nd.next).map (fun r => nd.s :: r)

/-- The values of the list in forward order, from `list->head`. -/
def forward_values (m : Mem) (lp : Nat) : Option (List (Option String)) :=
  match m.list lp with
  | none => none
  | some l => values_loop m (m.nodes.length + 1) l.head

/-- The structural invariant of the specification, section 3: the header is
there, following `next` from `head` ends and meets the nodes `ps`, following
`prev` from `tail` ends and meets the same nodes in reverse order, and `size`
is their number. -/
def WellFormed (m : Mem) (lp : Nat) : Prop :=
  match m.list lp, forward_nodes m lp, backward_nodes m lp with
  | some l, some ps, some qs => qs = ps.reverse ∧ l.size = ps.length
  | _, _, _ => False

instance (m : Mem) (lp : Nat) : Decidable (WellFormed m lp) := by
  unfold WellFormed
  split
  · infer_instance
  · infer_instance

/-- The invariants of section 3 of the specification, in its words, on the
sequence `ps` of the elements: `ps` has `size` elements; `size` is 0 exactly
when `head` and `tail` are both absent; `head` is the first and `tail` the last
element; the `next` link of each element is the following element, absent for
the last one, and its `prev` link is the preceding element, absent for the
first one. -/
def spec_invariants (m : Mem) (lp : Nat) : Prop :=
  ∃ (l : DList) (ps : List Nat), m.list lp = some l ∧ l.size = ps.length ∧
    (l.size = 0 ↔ l.head = none ∧ l.tail = none) ∧
    l.head = ps.head? ∧ l.tail = ps.getLast? ∧
    ∀ (i a : Nat), ps[i]? = some a → ∃ nd, m.node a = some nd ∧
      nd.next = ps[i + 1]? ∧ nd.prev = if i = 0 then none else ps[i - 1]?

/-- Memory with the node cells `ps` freed. -/
def free_all (m : Mem) (ps : List Nat) : Mem :=
  ps.foldl (fun acc a => acc.setNode a none) m

/-- One call on a list, of the kinds the size invariant of the specification
speaks of: an append, a removal by handle, a removal by value. -/
inductive Op where
  | insert_tail (value : Option String)
  | delete_node (n : Ptr)
  | delete_first_match (value : Option String)

/-- Whether the call is an append. -/
def Op.is_insert : Op → Bool
  | Op.insert_tail _ => true
  | _ => false

/-- Runs one call on the list at `lp`; with the new memory it gives the number
of appends made (0 or 1) and the number of removals that returned 1 (0 or 1). -/
def apply_op (malloc : Allocator) (lp : Nat) (m : Mem) : Op → Option (Mem × Nat × Nat)
  | Op.insert_tail v =>
    match dlist_insert_tail malloc m (some lp) v with
    | none => none
    | some (m2, _) => some (m2, 1, 0)
  | Op.delete_node n =>
    match dlist_delete_node m (some lp) n with
    | none => none
    | some (m2, r) => some (m2, 0, if r = 1 then 1 else 0)
  | Op.delete_first_match v =>
    match dlist_delete_first_match m (some lp) v with
    | none => none
    | some (m2, r) => some (m2, 0, if r = 1 then 1 else 0)

/-- Runs the calls in turn; with the last memory it gives the number `k` of
appends and the number `j` of removals that returned 1. -/
def run (malloc : Allocator) (lp : Nat) : Mem → List Op → Option (Mem × Nat × Nat)
  | m, [] => some (m, 0, 0)
  | m, op :: ops =>
    match apply_op malloc lp m op with
    | none => none
    | some (m1, k1, j1) =>
      match run malloc lp m1 ops with
      | none => none
      | some (m2, k2, j2) => some (m2, k1 + k2, j1 + j2)

/-- Every handle given to `dlist_delete_node` in the run is `NULL` or a
member of the list at the time of the call. -/
def member_handles (malloc : Allocator) (lp : Nat) : Mem → List Op → Prop
  | _, [] => True
  | m, op :: ops =>
    (match op with
      | Op.delete_node (some a) => ∃ ps, forward_nodes m lp = some ps ∧ a ∈ ps
      | _ => True) ∧
    (match apply_op malloc lp m op with
      | none => True
      | some r => member_handles malloc lp r.1 ops)

/-- A segment of live nodes `as` chained by `link` from `cur` up to `stop`. -/
def lseg (link : Node → Ptr) (m : Mem) : Ptr → List Nat → Ptr → Prop
  | cur, [], stop => cur = stop
  | cur, a :: as, stop =>
    cur = some a ∧ ∃ nd, m.node a = some nd ∧ lseg link m (link nd) as stop

/-- The header at `lp` represents the node sequence `ps`. -/
def Chain (m : Mem) (lp : Nat) (ps : List Nat) : Prop :=
  ∃ l, m.list lp = some l ∧ lseg Node.next m l.head ps none ∧
    lseg Node.prev m l.tail ps.reverse none ∧ l.size = ps.length

/-! ## Concrete memories and the rules of the specification -/

/-- Calls `dlist_insert_tail` with each value in turn. -/
def append_all (malloc : Allocator) (m : Mem) (list : Ptr) :
    List (Option String) → Option Mem
  | [] => some m
  | v :: vs =>
    match dlist_insert_tail malloc m list v with
    | none => none
    | some (m1, _) => append_all malloc m1 list vs

/-- A memory with no node and one `DList` variable that is not initialised. -/
def blank : Mem := ⟨[], [⟨some 7, some 9, 42⟩]⟩

/-- The list of `test_basic_ops` after its four appends. -/
def fruit : Mem :=
  ⟨[some ⟨some "apple", none, some 1⟩, some ⟨some "banana", some 0, some 2⟩,
    some ⟨some "cherry", some 1, some 3⟩, some ⟨some "banana", some 2, none⟩],
   [⟨some 0, some 3, 4⟩]⟩

/-- Two one-element lists in one memory: header 0 holds node 0 ("A"),
header 1 holds node 1 ("B"). -/
def two_lists : Mem :=
  ⟨[some ⟨some "A", none, none⟩, some ⟨some "B", none, none⟩],
   [⟨some 0, some 0, 1⟩, ⟨some 1, some 1, 1⟩]⟩

/-- A list holding the empty string, no string, "x", no string. -/
def mixed : Mem :=
  ⟨[some ⟨some "", none, some 1⟩, some ⟨none, some 0, some 2⟩,
    some ⟨some "x", some 1, some 3⟩, some ⟨none, some 2, none⟩],
   [⟨some 0, some 3, 4⟩]⟩

/-- The rule of the specification for `find_first`: two absent values are
equal, two present values are equal when they are the same text, an absent
and a present value are never equal. -/
def spec_equal (stored value : Option String) : Bool :=
  match stored, value with
  | none, none => true
  | some a, some b => decide (a = b)
  | none, some _ => false
  | some _, none => false

/-! ## Further observers -/

/-- The traversal from `cur` along `prev`, collecting the values. -/
def backward_loop (m : Mem) : Nat → Ptr → Option (List (Option String))
  | 0, _ => none
  | _ + 1, none => some []
  | fuel + 1, some a =>
    match m.node a with
    | none => none
    | some nd => (backward_loop m fuel nd.prev).map (fun r => nd.s :: r)

/-- The values of the list in backward order, from `list->tail`. -/
def backward_values (m : Mem) (lp : Nat) : Option (List (Option String)) :=
  match m.list lp with
  | none => none
  | some l => backward_loop m (m.nodes.length + 1) l.tail

/-- The text that `printf` writes for one node of `dlist_print`: `cur->s`, or
`(null)` when it is `NULL`, between double quotes. -/
def print_item (s : Option String) : String :=
  "\"" ++ (match s with | some t => t | none => "(null)") ++ "\""

/-- The loop of `dlist_print`, from `cur`: the text it writes. -/
def print_loop (m : Mem) : Nat → Ptr → Option String
  | 0, _ => none
  | _ + 1, none => some ""
  | fuel + 1, some a =>
    match m.node a with
    | none => none
    | some nd =>
      match print_loop m fuel nd.next with
      | none => none
      | some rest =>
        some (print_item nd.s ++ (if nd.next.isSome then ", " else "") ++ rest)

/-- The C `dlist_print`: the text it writes to the standard output; `%zu`
writes `list->size` in decimal. -/
def dlist_print (m : Mem) (list : Ptr) : Option String :=
  match list with
  | none => none
  | some lp =>
    match m.list lp with
    | none => none
    | some l =>
      match print_loop m (m.nodes.length + 1) l.head with
      | none => none
      | some body => some ("DList(size=" ++ toString l.size ++ "): [" ++ body ++ "]\n")

/-- The listing of the specification: each value in double quotes, an absent
value shown as `(null)`, a comma and a space between two values and no
separator after the last. -/
def spec_items : List (Option String) → String
  | [] => ""
  | [v] => "\"" ++ v.getD "(null)" ++ "\""
  | v :: w :: rest => "\"" ++ v.getD "(null)" ++ "\"" ++ ", " ++ spec_items (w :: rest)

/-- The display text of the specification for a component called `name`:
the name, `(size=n): [`, the listing, `]` and a newline. -/
def render_as (name : String) (vs : List (Option String)) : String :=
  name ++ "(size=" ++ toString vs.length ++ "): [" ++ spec_items vs ++ "]\n"

/-- The list of `main`: "hello", "world". -/
def hello_world : Mem :=
  ⟨[some ⟨some "hello", none, some 1⟩, some ⟨some "world", some 0, none⟩],
   [⟨some 0, some 1, 2⟩]⟩

/-- Calls `dlist_delete_first_match` with each value in turn and collects
what the calls return. -/
def drain (m : Mem) (list : Ptr) : List (Option String) → Option (Mem × List Int)
  | [] => some (m, [])
  | w :: ws =>
    match dlist_delete_first_match m list w with
    | none => none
    | some (m1, r) =>
      match drain m1 list ws with
      | none => none
      | some (m2, rs) => some (m2, r :: rs)

/-- The list of `test_delete_by_node_pointer` after its three appends: the
handles `a`, `b`, `c` are the nodes 0, 1, 2. -/
def abc : Mem :=
  ⟨[some ⟨some "A", none, some 1⟩, some ⟨some "B", some 0, some 2⟩,
    some ⟨some "C", some 1, none⟩],
   [⟨some 0, some 2, 3⟩]⟩

/-- The loop of `dlist_find_first`, counting the nodes it visits before it
returns. -/
def find_visits (m : Mem) (value : Option String) : Nat → Ptr → Option Nat
  | 0, _ => none
  | _ + 1, none => some 0
  | fuel + 1, some a =>
    match m.node a with
    | none => none
    | some nd =>
      if value_matches nd.s value then some 1
      else (find_visits m value fuel nd.next).map (fun k => k + 1)

/-- A ring of two nodes that is not a well-formed list: node 0 holds "x",
node 1 holds no string, and each is the next and the prev of the other. -/
def loopy : Mem :=
  ⟨[some ⟨some "x", some 1, some 1⟩, some ⟨none, some 0, some 0⟩],
   [⟨some 0, some 1, 2⟩]⟩

/-! ## Memory lemmas -/

theorem lookup_store (h : Heap) (a b : Nat) (v : Option Node) :
    lookup (store h a v) b = if b = a then v else lookup h b := by
  unfold lookup store
  by_cases hb : b = a
  · subst hb
    have hlt : b < List.length h + (b + 1 - List.length h) := by omega
    simp [List.getElem?_set, hlt]
  · have hb2 : a ≠ b := fun e => hb e.symm
    simp only [hb, if_false]
    rw [List.getElem?_set_ne hb2]
    by_cases hl : b < h.length
    · rw [List.getElem?_append_left hl]
    · rw [List.getElem?_append_right (by omega)]
      rw [List.getElem?_eq_none (by omega : h.length ≤ b)]
      simp only [List.getElem?_replicate]
      split <;> rfl

theorem lookup_lt {h : Heap} {a : Nat} {nd : Node} (e : lookup h a = some nd) :
    a < h.length := by
  unfold lookup at e
  by_contra hc
  rw [List.getElem?_eq_none (by omega)] at e
  simp at e

theorem length_store (h : Heap) (a : Nat) (v : Option Node) :
    h.length ≤ (store h a v).length := by
  unfold store
  simp

theorem length_store_live {h : Heap} {a : Nat} {nd : Node} (e : lookup h a = some nd)
    (v : Option Node) : (store h a v).length = h.length := by
  have := lookup_lt e
  unfold store
  simp
  omega

@[simp] theorem node_setNode (m : Mem) (a b : Nat) (v : Option Node) :
    (m.setNode a v).node b = if b = a then v else m.node b := by
  simp [Mem.node, Mem.setNode, lookup_store]

@[simp] theorem node_setList (m : Mem) (a b : Nat) (l : DList) :
    (m.setList a l).node b = m.node b := rfl

@[simp] theorem list_setNode (m : Mem) (a b : Nat) (v : Option Node) :
    (m.setNode a v).list b = m.list b := rfl

theorem list_setList (m : Mem) (a b : Nat) (l : DList) :
    (m.setList a l).list b = if b = a then (m.list a).map (fun _ => l) else m.list b := by
  unfold Mem.list Mem.setList
  by_cases hb : b = a
  · subst hb
    simp [List.getElem?_set]
    by_cases hl : b < m.lists.length
    · simp [hl]
    · simp [hl]
      rw [List.getElem?_eq_none (by omega)]
      simp
  · have hb2 : a ≠ b := fun e => hb e.symm
    simp [hb, List.getElem?_set_ne hb2]

theorem list_setList_same {m : Mem} {a : Nat} {l0 : DList} (e : m.list a = some l0)
    (l : DList) : (m.setList a l).list a = some l := by
  rw [list_setList]
  simp [e]

@[simp] theorem nodes_setList (m : Mem) (a : Nat) (l : DList) :
    (m.setList a l).nodes = m.nodes := rfl

theorem setList_self {m : Mem} {a : Nat} {l : DList} (e : m.list a = some l) :
    m.setList a l = m := by
  cases m with
  | mk nodes lists =>
    simp only [Mem.setList, Mem.list] at *
    congr 1
    apply List.ext_getElem?
    intro i
    by_cases hi : i = a
    · subst hi
      rw [List.getElem?_set]
      simp [e]
      by_contra hc
      rw [List.getElem?_eq_none (by omega)] at e
      simp at e
    · have : a ≠ i := fun e => hi e.symm
      rw [List.getElem?_set_ne this]

theorem first_fit_fresh : Allocator.Fresh first_fit := by
  intro h
  unfold first_fit lookup
  by_cases hl : h.findIdx (fun c => c.isNone) < h.length
  · have e := @List.findIdx_getElem _ (fun c => c.isNone) h hl
    rw [List.getElem?_eq_getElem hl]
    rw [Option.isNone_iff_eq_none] at e
    rw [e]
    rfl
  · rw [List.getElem?_eq_none (by omega)]
    rfl

/-! ## Segments -/

theorem lseg_append (k : Node → Ptr) (m : Mem) (xs ys : List Nat) (c stop : Ptr) :
    lseg k m c (xs ++ ys) stop ↔ ∃ mid, lseg k m c xs mid ∧ lseg k m mid ys stop := by
  induction xs generalizing c with
  | nil => simp [lseg]
  | cons a as ih =>
    show (c = some a ∧ ∃ nd, m.node a = some nd ∧ lseg k m (k nd) (as ++ ys) stop) ↔ _
    constructor
    · rintro ⟨hc, nd, hnd, h⟩
      obtain ⟨mid, h1, h2⟩ := (ih _).mp h
      exact ⟨mid, ⟨hc, nd, hnd, h1⟩, h2⟩
    · rintro ⟨mid, ⟨hc, nd, hnd, h1⟩, h2⟩
      exact ⟨hc, nd, hnd, (ih _).mpr ⟨mid, h1, h2⟩⟩

theorem lseg_live {k : Node → Ptr} {m : Mem} {xs : List Nat} {c stop : Ptr}
    (h : lseg k m c xs stop) {a : Nat} (ha : a ∈ xs) : ∃ nd, m.node a = some nd := by
  induction xs generalizing c with
  | nil => cases ha
  | cons b bs ih =>
    obtain ⟨_, nd, hnd, hrest⟩ := h
    rcases List.mem_cons.mp ha with e | e
    · subst e
      exact ⟨nd, hnd⟩
    · exact ih hrest e

theorem lseg_frame {k : Node → Ptr} {m m2 : Mem} {xs : List Nat} {c stop : Ptr}
    (hf : ∀ a ∈ xs, ∀ nd, m.node a = some nd → ∃ nd2, m2.node a = some nd2 ∧ k nd2 = k nd)
    (h : lseg k m c xs stop) : lseg k m2 c xs stop := by
  induction xs generalizing c with
  | nil => exact h
  | cons b bs ih =>
    obtain ⟨hc, nd, hnd, hrest⟩ := h
    obtain ⟨nd2, hnd2, hk⟩ := hf b (List.mem_cons_self b bs) nd hnd
    refine ⟨hc, nd2, hnd2, ?_⟩
    rw [hk]
    exact ih (fun a ha => hf a (List.mem_cons_of_mem b ha)) hrest

theorem lseg_unique {k : Node → Ptr} {m : Mem} {xs ys : List Nat} {c : Ptr}
    (hx : lseg k m c xs none) (hy : lseg k m c ys none) : xs = ys := by
  induction xs generalizing c ys with
  | nil =>
    cases ys with
    | nil => rfl
    | cons b bs =>
      obtain ⟨hc, _⟩ := hy
      have hx2 : c = none := hx
      rw [hx2] at hc
      cases hc
  | cons a as ih =>
    obtain ⟨hc, nd, hnd, hrest⟩ := hx
    cases ys with
    | nil =>
      have hy2 : c = none := hy
      rw [hy2] at hc
      cases hc
    | cons b bs =>
      obtain ⟨hc2, nd2, hnd2, hrest2⟩ := hy
      rw [hc] at hc2
      cases hc2
      rw [hnd] at hnd2
      cases hnd2
      rw [ih hrest hrest2]

theorem lseg_nodup {k : Node → Ptr} {m : Mem} {xs : List Nat} {c : Ptr}
    (h : lseg k m c xs none) : xs.Nodup := by
  induction xs generalizing c with
  | nil => exact List.nodup_nil
  | cons a as ih =>
    obtain ⟨_, nd, hnd, hrest⟩ := h
    refine List.nodup_cons.mpr ⟨?_, ih hrest⟩
    intro ha
    obtain ⟨us, vs, e⟩ := List.append_of_mem ha
    rw [e] at hrest
    obtain ⟨mid, _, h2⟩ := (lseg_append k m us (a :: vs) _ none).mp hrest
    obtain ⟨_, nd2, hnd2, h3⟩ := h2
    rw [hnd] at hnd2
    cases hnd2
    have e2 := lseg_unique hrest h3
    have e3 := congrArg List.length e2
    simp at e3
    omega

theorem lseg_length_le {k : Node → Ptr} {m : Mem} {xs : List Nat} {c : Ptr}
    (h : lseg k m c xs none) : xs.length ≤ m.nodes.length := by
  have hsub : xs ⊆ List.range m.nodes.length := by
    intro a ha
    obtain ⟨nd, hnd⟩ := lseg_live h ha
    exact List.mem_range.mpr (lookup_lt hnd)
  have := (List.subperm_of_subset (lseg_nodup h) hsub).length_le
  simpa using this

theorem lseg_last {k : Node → Ptr} {m : Mem} {xs : List Nat} {a : Nat} {c stop : Ptr}
    (h : lseg k m c (xs ++ [a]) stop) :
    ∃ nd, m.node a = some nd ∧ k nd = stop ∧ lseg k m c xs (some a) := by
  obtain ⟨mid, h1, h2⟩ := (lseg_append k m xs [a] c stop).mp h
  obtain ⟨hc, nd, hnd, h3⟩ := h2
  subst hc
  exact ⟨nd, hnd, h3, h1⟩

theorem lseg_snoc {k : Node → Ptr} {m : Mem} {xs : List Nat} {a : Nat} {c stop : Ptr}
    (nd : Node) (h : lseg k m c xs (some a)) (hnd : m.node a = some nd) (hk : k nd = stop) :
    lseg k m c (xs ++ [a]) stop :=
  (lseg_append k m xs [a] c stop).mpr ⟨some a, h, rfl, nd, hnd, hk⟩

/-! ## Traversals compute the segment -/

theorem walk_of_lseg {k : Node → Ptr} {m : Mem} {xs : List Nat} {c : Ptr} {fuel : Nat}
    (h : lseg k m c xs none) (hf : xs.length < fuel) : walk k m fuel c = some xs := by
  induction xs generalizing c fuel with
  | nil =>
    have hc : c = none := h
    subst hc
    cases fuel with
    | zero => simp at hf
    | succ f => rfl
  | cons a as ih =>
    obtain ⟨hc, nd, hnd, hrest⟩ := h
    subst hc
    cases fuel with
    | zero => simp at hf
    | succ f =>
      simp only [List.length_cons, Nat.add_lt_add_iff_right] at hf
      simp [walk, hnd, ih hrest hf]

theorem lseg_of_walk {k : Node → Ptr} {m : Mem} {xs : List Nat} {c : Ptr} {fuel : Nat}
    (h : walk k m fuel c = some xs) : lseg k m c xs none := by
  induction fuel generalizing c xs with
  | zero => simp [walk] at h
  | succ f ih =>
    cases c with
    | none =>
      simp [walk] at h
      subst h
      rfl
    | some a =>
      simp only [walk] at h
      cases hnd : m.node a with
      | none => simp [hnd] at h
      | some nd =>
        simp only [hnd, Option.map_eq_some'] at h
        obtain ⟨r, hr, e⟩ := h
        subst e
        exact ⟨rfl, nd, hnd, ih hr⟩

theorem walk_iff_lseg (k : Node → Ptr) (m : Mem) (xs : List Nat) (c : Ptr) :
    walk k m (m.nodes.length + 1) c = some xs ↔ lseg k m c xs none :=
  ⟨lseg_of_walk, fun h => walk_of_lseg h (Nat.lt_succ_of_le (lseg_length_le h))⟩

theorem values_of_lseg {m : Mem} {xs : List Nat} {c : Ptr} {fuel : Nat}
    (h : lseg Node.next m c xs none) (hf : xs.length < fuel) :
    values_loop m fuel c = some (xs.map (text m)) := by
  induction xs generalizing c fuel with
  | nil =>
    have hc : c = none := h
    subst hc
    cases fuel with
    | zero => simp at hf
    | succ f => rfl
  | cons a as ih =>
    obtain ⟨hc, nd, hnd, hrest⟩ := h
    subst hc
    cases fuel with
    | zero => simp at hf
    | succ f =>
      simp only [List.length_cons, Nat.add_lt_add_iff_right] at hf
      simp [values_loop, hnd, ih hrest hf, text]

theorem wellFormed_def (m : Mem) (lp : Nat) :
    WellFormed m lp ↔ ∃ l ps, m.list lp = some l ∧ forward_nodes m lp = some ps ∧
      backward_nodes m lp = some ps.reverse ∧ l.size = ps.length := by
  unfold WellFormed
  constructor
  · intro h
    split at h
    · rename_i l ps qs h1 h2 h3
      obtain ⟨e, hs⟩ := h
      subst e
      exact ⟨l, ps, h1, h2, h3, hs⟩
    · exact h.elim
  · rintro ⟨l, ps, h1, h2, h3, hs⟩
    rw [h1, h2, h3]
    exact ⟨rfl, hs⟩

theorem wellFormed_iff_chain (m : Mem) (lp : Nat) :
    WellFormed m lp ↔ ∃ ps, Chain m lp ps := by
  rw [wellFormed_def]
  constructor
  · rintro ⟨l, ps, hl, hf, hb, hs⟩
    simp only [forward_nodes, backward_nodes, hl] at hf hb
    exact ⟨ps, l, hl, lseg_of_walk hf, lseg_of_walk hb, hs⟩
  · rintro ⟨ps, l, hl, hf, hb, hs⟩
    refine ⟨l, ps, hl, ?_, ?_, hs⟩
    · simp only [forward_nodes, hl]
      exact (walk_iff_lseg _ m ps _).mpr hf
    · simp only [backward_nodes, hl]
      exact (walk_iff_lseg _ m ps.reverse _).mpr hb

theorem Chain.forward_nodes {m : Mem} {lp : Nat} {ps : List Nat} (h : Chain m lp ps) :
    forward_nodes m lp = some ps := by
  obtain ⟨l, hl, hf, _, _⟩ := h
  simp only [DllStrings.forward_nodes, hl]
  exact (walk_iff_lseg _ m ps _).mpr hf

theorem Chain.backward_nodes {m : Mem} {lp : Nat} {ps : List Nat} (h : Chain m lp ps) :
    backward_nodes m lp = some ps.reverse := by
  obtain ⟨l, hl, _, hb, _⟩ := h
  simp only [DllStrings.backward_nodes, hl]
  exact (walk_iff_lseg _ m ps.reverse _).mpr hb

theorem Chain.forward_values {m : Mem} {lp : Nat} {ps : List Nat} (h : Chain m lp ps) :
    forward_values m lp = some (ps.map (text m)) := by
  obtain ⟨l, hl, hf, _, _⟩ := h
  simp only [DllStrings.forward_values, hl]
  exact values_of_lseg hf (Nat.lt_succ_of_le (lseg_length_le hf))

theorem Chain.wellFormed {m : Mem} {lp : Nat} {ps : List Nat} (h : Chain m lp ps) :
    WellFormed m lp :=
  (wellFormed_iff_chain m lp).mpr ⟨ps, h⟩

theorem chain_of_forward {m : Mem} {lp : Nat} {ps : List Nat} (hw : WellFormed m lp)
    (hf : forward_nodes m lp = some ps) : Chain m lp ps := by
  obtain ⟨qs, hq⟩ := (wellFormed_iff_chain m lp).mp hw
  have e := hq.forward_nodes
  rw [hf] at e
  cases e
  exact hq

theorem lseg_none {k : Node → Ptr} {m : Mem} {xs : List Nat}
    (h : lseg k m none xs none) : xs = [] := by
  cases xs with
  | nil => rfl
  | cons a as =>
    obtain ⟨hc, _⟩ := h
    cases hc

theorem lseg_some {k : Node → Ptr} {m : Mem} {xs : List Nat} {p : Nat}
    (h : lseg k m (some p) xs none) :
    ∃ rest nd, xs = p :: rest ∧ m.node p = some nd ∧ lseg k m (k nd) rest none := by
  cases xs with
  | nil => cases (h : some p = none)
  | cons a as =>
    obtain ⟨hc, nd, hnd, hrest⟩ := h
    cases hc
    exact ⟨as, nd, rfl, hnd, hrest⟩

theorem lseg_setNode_notin {k : Node → Ptr} {m : Mem} {xs : List Nat} {c stop : Ptr}
    {a : Nat} (v : Option Node) (ha : a ∉ xs) (h : lseg k m c xs stop) :
    lseg k (m.setNode a v) c xs stop := by
  refine lseg_frame ?_ h
  intro b hb nd hnd
  have hne : b ≠ a := fun e => ha (e ▸ hb)
  exact ⟨nd, by simp [hne, hnd], rfl⟩

theorem lseg_setNode_same {k : Node → Ptr} {m : Mem} {xs : List Nat} {c stop : Ptr}
    {p : Nat} {pn pn2 : Node} (hp : m.node p = some pn) (hk : k pn2 = k pn)
    (h : lseg k m c xs stop) : lseg k (m.setNode p (some pn2)) c xs stop := by
  refine lseg_frame ?_ h
  intro b _ nd hnd
  by_cases hne : b = p
  · subst hne
    rw [hp] at hnd
    cases hnd
    exact ⟨pn2, by simp, hk⟩
  · exact ⟨nd, by simp [hne, hnd], rfl⟩

theorem lseg_setList {k : Node → Ptr} {m : Mem} {xs : List Nat} {c stop : Ptr}
    (lp : Nat) (l : DList) (h : lseg k m c xs stop) : lseg k (m.setList lp l) c xs stop :=
  @lseg_frame k m (m.setList lp l) xs c stop (fun _ _ nd hnd => ⟨nd, hnd, rfl⟩) h

/-- Taking node `a` out of a `k`-segment: either `a` is first and the segment
after it starts at `k nd`, or the node before `a`, found through the opposite
link `k2`, is given the link `k nd`. -/
theorem lseg_bypass (k k2 : Node → Ptr) (upd : Node → Ptr → Node)
    (hk : ∀ nd x, k (upd nd x) = x) {m : Mem} {front back : List Nat} {a : Nat} {nd : Node}
    {c : Ptr} (h : lseg k m c (front ++ a :: back) none) (hnd : m.node a = some nd)
    (h2 : lseg k2 m (k2 nd) front.reverse none) :
    lseg k m (k nd) back none ∧
    match k2 nd with
    | none => front = [] ∧ c = some a
    | some p => ∃ pn, m.node p = some pn ∧ p ≠ a ∧ p ∈ front ∧
        lseg k (m.setNode p (some (upd pn (k nd)))) c (front ++ back) none := by
  have hnodup := lseg_nodup h
  obtain ⟨mid, h3, h4⟩ := (lseg_append k m front (a :: back) c none).mp h
  obtain ⟨hmid, nd2, hnd2, h5⟩ := h4
  rw [hnd] at hnd2
  cases hnd2
  subst hmid
  refine ⟨h5, ?_⟩
  cases hp : k2 nd with
  | none =>
    rw [hp] at h2
    have e : front = [] := by simpa using lseg_none h2
    subst e
    exact ⟨rfl, h3⟩
  | some p =>
    rw [hp] at h2
    obtain ⟨rest, pn, e, hpn, _⟩ := lseg_some h2
    have e2 : front = rest.reverse ++ [p] := by
      have := congrArg List.reverse e
      simpa using this
    subst e2
    have hpa : p ≠ a := by
      intro hc
      subst hc
      exact (List.nodup_append.mp hnodup).2.2 (by simp : p ∈ rest.reverse ++ [p])
        (List.mem_cons_self p back)
    have hnd1 : (rest.reverse ++ [p]).Nodup := (List.nodup_append.mp hnodup).1
    have hpr : p ∉ rest.reverse := by
      intro hc
      exact (List.nodup_append.mp hnd1).2.2 hc (List.mem_singleton_self p)
    have hpb : p ∉ back := by
      intro hc
      exact (List.nodup_append.mp hnodup).2.2 (by simp) (List.mem_cons_of_mem a hc)
    obtain ⟨pn2, hpn2, _, h6⟩ := lseg_last h3
    rw [hpn] at hpn2
    cases hpn2
    refine ⟨pn, hpn, hpa, by simp, ?_⟩
    rw [List.append_assoc]
    refine (lseg_append k _ rest.reverse ([p] ++ back) c none).mpr
      ⟨some p, lseg_setNode_notin _ hpr h6, rfl, upd pn (k nd), by simp, ?_⟩
    rw [hk]
    exact lseg_setNode_notin _ hpb h5

/-! ## The invariants of the specification -/

theorem lseg_index {k : Node → Ptr} {m : Mem} {xs : List Nat} {c : Ptr}
    (h : lseg k m c xs none) :
    c = xs.head? ∧ ∀ (i a : Nat), xs[i]? = some a →
      ∃ nd, m.node a = some nd ∧ k nd = xs[i + 1]? := by
  induction xs generalizing c with
  | nil =>
    refine ⟨h, ?_⟩
    intro i a hi
    simp at hi
  | cons b bs ih =>
    obtain ⟨hc, nd, hnd, hrest⟩ := h
    obtain ⟨ih1, ih2⟩ := ih hrest
    refine ⟨hc, ?_⟩
    intro i a hi
    cases i with
    | zero =>
      simp only [List.getElem?_cons_zero, Option.some.injEq] at hi
      subst hi
      refine ⟨nd, hnd, ?_⟩
      rw [ih1, List.getElem?_cons_succ, List.head?_eq_getElem?]
    | succ j =>
      rw [List.getElem?_cons_succ] at hi
      rw [List.getElem?_cons_succ]
      exact ih2 j a hi

theorem lseg_of_index {k : Node → Ptr} {m : Mem} {xs : List Nat}
    (h : ∀ (i a : Nat), xs[i]? = some a → ∃ nd, m.node a = some nd ∧ k nd = xs[i + 1]?) :
    lseg k m xs.head? xs none := by
  induction xs with
  | nil => rfl
  | cons b bs ih =>
    obtain ⟨nd, hnd, hk⟩ := h 0 b (by simp)
    refine ⟨rfl, nd, hnd, ?_⟩
    rw [hk, List.getElem?_cons_succ, ← List.head?_eq_getElem?]
    apply ih
    intro i a hi
    have := h (i + 1) a (by simpa using hi)
    simpa using this

theorem chain_spec_invariants {m : Mem} {lp : Nat} {ps : List Nat} (h : Chain m lp ps) :
    spec_invariants m lp := by
  obtain ⟨l, hl, hf, hb, hs⟩ := h
  obtain ⟨hh, hnext⟩ := lseg_index hf
  obtain ⟨ht, hprev⟩ := lseg_index hb
  rw [List.head?_reverse] at ht
  refine ⟨l, ps, hl, hs, ?_, hh, ht, ?_⟩
  · constructor
    · intro h0
      have e : ps = [] := List.length_eq_zero.mp (by omega)
      subst e
      exact ⟨hh, ht⟩
    · rintro ⟨h1, _⟩
      rw [h1] at hh
      have e : ps = [] := by
        cases ps with
        | nil => rfl
        | cons b bs => cases hh
      simp [hs, e]
  · intro i a hi
    obtain ⟨hlt, _⟩ := List.getElem?_eq_some.mp hi
    obtain ⟨nd, hnd, hk⟩ := hnext i a hi
    have e1 : ps.reverse[ps.length - 1 - i]? = some a := by
      rw [List.getElem?_reverse' (ps.length - 1 - i) i (by omega)]
      exact hi
    obtain ⟨nd2, hnd2, hk2⟩ := hprev _ a e1
    rw [hnd] at hnd2
    cases hnd2
    refine ⟨nd, hnd, hk, ?_⟩
    rw [hk2]
    by_cases h0 : i = 0
    · subst h0
      simp only [if_true]
      apply List.getElem?_eq_none
      rw [List.length_reverse]
      omega
    · simp only [h0, if_false]
      exact List.getElem?_reverse' (ps.length - 1 - i + 1) (i - 1) (by omega)

theorem spec_invariants_chain {m : Mem} {lp : Nat} (h : spec_invariants m lp) :
    ∃ ps, Chain m lp ps := by
  obtain ⟨l, ps, hl, hs, _, hh, ht, hlinks⟩ := h
  refine ⟨ps, l, hl, ?_, ?_, hs⟩
  · rw [hh]
    apply lseg_of_index
    intro i a hi
    obtain ⟨nd, hnd, hk, _⟩ := hlinks i a hi
    exact ⟨nd, hnd, hk⟩
  · rw [ht, ← List.head?_reverse]
    apply lseg_of_index
    intro j a hj
    obtain ⟨hlt, _⟩ := List.getElem?_eq_some.mp hj
    rw [List.length_reverse] at hlt
    have e1 : ps[ps.length - 1 - j]? = some a := by
      rw [← List.getElem?_reverse' j (ps.length - 1 - j) (by omega)]
      exact hj
    obtain ⟨nd, hnd, _, hk⟩ := hlinks _ a e1
    refine ⟨nd, hnd, ?_⟩
    rw [hk]
    by_cases h0 : ps.length - 1 - j = 0
    · simp only [h0, if_true]
      symm
      apply List.getElem?_eq_none
      rw [List.length_reverse]
      omega
    · simp only [h0, if_false]
      exact (List.getElem?_reverse' (j + 1) (ps.length - 1 - j - 1) (by omega)).symm

theorem wellFormed_iff_spec (m : Mem) (lp : Nat) : WellFormed m lp ↔ spec_invariants m lp := by
  rw [wellFormed_iff_chain]
  exact ⟨fun ⟨_, h⟩ => chain_spec_invariants h, spec_invariants_chain⟩

/-! ## Clearing -/

theorem free_all_list (m : Mem) (ps : List Nat) (x : Nat) :
    (free_all m ps).list x = m.list x := by
  induction ps generalizing m with
  | nil => rfl
  | cons a as ih =>
    show (free_all (m.setNode a none) as).list x = m.list x
    rw [ih]
    rfl

theorem free_all_node (m : Mem) (ps : List Nat) (b : Nat) :
    (free_all m ps).node b = if b ∈ ps then none else m.node b := by
  induction ps generalizing m with
  | nil => simp [free_all]
  | cons a as ih =>
    show (free_all (m.setNode a none) as).node b = _
    rw [ih]
    by_cases h1 : b ∈ as
    · simp [h1]
    · by_cases h2 : b = a
      · simp [h2]
      · simp [h1, h2]

theorem clear_loop_lseg {m : Mem} {ps : List Nat} {c : Ptr} {fuel : Nat}
    (h : lseg Node.next m c ps none) (hf : ps.length < fuel) :
    clear_loop fuel m c = some (free_all m ps) := by
  induction ps generalizing m c fuel with
  | nil =>
    have hc : c = none := h
    subst hc
    cases fuel with
    | zero => simp at hf
    | succ f => rfl
  | cons a as ih =>
    have hnodup := lseg_nodup h
    obtain ⟨hc, nd, hnd, hrest⟩ := h
    subst hc
    cases fuel with
    | zero => simp at hf
    | succ f =>
      simp only [List.length_cons, Nat.add_lt_add_iff_right] at hf
      simp only [clear_loop, hnd]
      rw [ih (lseg_setNode_notin none (List.nodup_cons.mp hnodup).1 hrest) hf]
      rfl

theorem chain_empty {m : Mem} {lp : Nat} (h : m.list lp = some ⟨none, none, 0⟩) :
    Chain m lp [] :=
  ⟨_, h, rfl, rfl, rfl⟩

theorem init_spec {m : Mem} {lp : Nat} {l : DList} (hl : m.list lp = some l) :
    dlist_init m (some lp) = some (m.setList lp ⟨none, none, 0⟩) ∧
    Chain (m.setList lp ⟨none, none, 0⟩) lp [] := by
  refine ⟨?_, chain_empty (list_setList_same hl _)⟩
  simp only [dlist_init, hl]

theorem clear_spec {m : Mem} {lp : Nat} {ps : List Nat} (h : Chain m lp ps) :
    dlist_clear m (some lp) = some ((free_all m ps).setList lp ⟨none, none, 0⟩) ∧
    Chain ((free_all m ps).setList lp ⟨none, none, 0⟩) lp [] := by
  obtain ⟨l, hl, hf, _, _⟩ := h
  have hl2 : (free_all m ps).list lp = some l := by rw [free_all_list, hl]
  refine ⟨?_, chain_empty (list_setList_same hl2 _)⟩
  simp only [dlist_clear, hl, clear_loop_lseg hf (Nat.lt_succ_of_le (lseg_length_le hf)), hl2]

/-! ## Deleting -/

theorem text_setNode_same {m : Mem} {p : Nat} {pn pn2 : Node} (hp : m.node p = some pn)
    (hs : pn2.s = pn.s) (b : Nat) : text (m.setNode p (some pn2)) b = text m b := by
  unfold text
  by_cases hb : b = p
  · subst hb
    simp [hp, hs]
  · simp [hb]

theorem unlink_prev_spec {m : Mem} {lp : Nat} {l : DList} {front back : List Nat} {a : Nat}
    {nd : Node} (hl : m.list lp = some l) (hnd : m.node a = some nd)
    (hf : lseg Node.next m l.head (front ++ a :: back) none)
    (hb : lseg Node.prev m l.tail (back.reverse ++ a :: front.reverse) none) :
    ∃ m1 l1, unlink_prev m lp nd = some m1 ∧ m1.node a = some nd ∧
      m1.list lp = some l1 ∧ l1.tail = l.tail ∧ l1.size = l.size ∧
      lseg Node.next m1 l1.head (front ++ back) none ∧
      lseg Node.prev m1 l1.tail (back.reverse ++ a :: front.reverse) none ∧
      lseg Node.next m1 nd.next back none ∧ (∀ b, text m1 b = text m b) := by
  obtain ⟨mid, _, h4⟩ := (lseg_append _ m back.reverse (a :: front.reverse) _ none).mp hb
  obtain ⟨_, nd2, hnd2, h2⟩ := h4
  rw [hnd] at hnd2
  cases hnd2
  obtain ⟨hback, hcase⟩ := lseg_bypass Node.next Node.prev (fun x y => { x with next := y })
    (fun _ _ => rfl) hf hnd h2
  cases hp : nd.prev with
  | none =>
    rw [hp] at hcase
    obtain ⟨e, _⟩ := hcase
    subst e
    refine ⟨m.setList lp { l with head := nd.next }, { l with head := nd.next }, ?_, hnd,
      list_setList_same hl _, rfl, rfl, lseg_setList _ _ hback, lseg_setList _ _ hb,
      lseg_setList _ _ hback, fun _ => rfl⟩
    simp only [unlink_prev, hp, hl]
  | some p =>
    rw [hp] at hcase
    obtain ⟨pn, hpn, hpa, hpf, hnew⟩ := hcase
    have hpb : p ∉ back := fun hc =>
      (List.nodup_append.mp (lseg_nodup hf)).2.2 hpf (List.mem_cons_of_mem a hc)
    refine ⟨m.setNode p (some { pn with next := nd.next }), l, ?_, ?_, hl, rfl, rfl, hnew,
      lseg_setNode_same hpn rfl hb, lseg_setNode_notin _ hpb hback,
      text_setNode_same hpn rfl⟩
    · simp only [unlink_prev, hp, hpn]
    · simp [hpa.symm, hnd]

theorem unlink_next_spec {m : Mem} {lp : Nat} {l : DList} {front back : List Nat} {a : Nat}
    {nd : Node} (hl : m.list lp = some l) (hnd : m.node a = some nd)
    (hf : lseg Node.next m l.head (front ++ back) none)
    (hb : lseg Node.prev m l.tail (back.reverse ++ a :: front.reverse) none)
    (hnx : lseg Node.next m nd.next back none) :
    ∃ m2 l2, unlink_next m lp nd = some m2 ∧ m2.node a = some nd ∧
      m2.list lp = some l2 ∧ l2.head = l.head ∧ l2.size = l.size ∧
      lseg Node.next m2 l2.head (front ++ back) none ∧
      lseg Node.prev m2 l2.tail (back.reverse ++ front.reverse) none ∧
      (∀ b, text m2 b = text m b) := by
  have h2 : lseg Node.next m nd.next back.reverse.reverse none := by
    rw [List.reverse_reverse]
    exact hnx
  obtain ⟨hfront, hcase⟩ := lseg_bypass Node.prev Node.next (fun x y => { x with prev := y })
    (fun _ _ => rfl) hb hnd h2
  cases hq : nd.next with
  | none =>
    rw [hq] at hcase
    obtain ⟨e, _⟩ := hcase
    have hfront2 : lseg Node.prev m nd.prev (back.reverse ++ front.reverse) none := by
      rw [e]
      exact hfront
    refine ⟨m.setList lp { l with tail := nd.prev }, { l with tail := nd.prev }, ?_, hnd,
      list_setList_same hl _, rfl, rfl, lseg_setList _ _ hf, lseg_setList _ _ hfront2,
      fun _ => rfl⟩
    simp only [unlink_next, hq, hl]
  | some q =>
    rw [hq] at hcase
    obtain ⟨qn, hqn, hqa, _, hnew⟩ := hcase
    refine ⟨m.setNode q (some { qn with prev := nd.prev }), l, ?_, ?_, hl, rfl, rfl,
      lseg_setNode_same hqn rfl hf, hnew, text_setNode_same hqn rfl⟩
    · simp only [unlink_next, hq, hqn]
    · simp [hqa.symm, hnd]

theorem size_dec_succ (n : Nat) : size_dec (n + 1) = n := by
  simp [size_dec]

theorem delete_node_spec {m : Mem} {lp : Nat} {l : DList} {front back : List Nat} {a : Nat}
    (hl : m.list lp = some l) (h : Chain m lp (front ++ a :: back)) :
    ∃ m2 l2, dlist_delete_node m (some lp) (some a) = some (m2, 1) ∧
      Chain m2 lp (front ++ back) ∧ m2.list lp = some l2 ∧ l2.size + 1 = l.size ∧
      m2.node a = none ∧ (∀ b, b ≠ a → text m2 b = text m b) := by
  obtain ⟨l0, hl0, hf, hb, hs⟩ := h
  rw [hl] at hl0
  cases hl0
  have e : (front ++ a :: back).reverse = back.reverse ++ a :: front.reverse := by simp
  rw [e] at hb
  have hnodup := lseg_nodup hf
  have han : a ∉ front ++ back := by
    intro hc
    rcases List.mem_append.mp hc with h1 | h1
    · exact (List.nodup_append.mp hnodup).2.2 h1 (List.mem_cons_self a back)
    · exact (List.nodup_cons.mp (List.nodup_append.mp hnodup).2.1).1 h1
  have han2 : a ∉ back.reverse ++ front.reverse := by
    intro hc
    apply han
    rcases List.mem_append.mp hc with h1 | h1
    · exact List.mem_append_right _ (List.mem_reverse.mp h1)
    · exact List.mem_append_left _ (List.mem_reverse.mp h1)
  obtain ⟨nd, hnd⟩ := lseg_live hf (by simp : a ∈ front ++ a :: back)
  obtain ⟨m1, l1, hrun1, hnd1, hl1, ht1, hs1, hf1, hb1, hnx1, htx1⟩ :=
    unlink_prev_spec hl hnd hf hb
  obtain ⟨m2, l2, hrun2, hnd2, hl2, hh2, hs2, hf2, hb2, htx2⟩ :=
    unlink_next_spec hl1 hnd1 hf1 hb1 hnx1
  have hl3 : (m2.setNode a none).list lp = some l2 := by simpa using hl2
  refine ⟨(m2.setNode a none).setList lp { l2 with size := size_dec l2.size },
    { l2 with size := size_dec l2.size }, ?_, ?_, list_setList_same hl3 _, ?_, by simp, ?_⟩
  · simp only [dlist_delete_node, hnd, hrun1, hnd1, hrun2, hnd2, hl3]
  · refine ⟨_, list_setList_same hl3 _, lseg_setList _ _ (lseg_setNode_notin _ han hf2), ?_, ?_⟩
    · have e2 : (front ++ back).reverse = back.reverse ++ front.reverse := by simp
      rw [e2]
      exact lseg_setList _ _ (lseg_setNode_notin _ han2 hb2)
    · simp only [hs2, hs1, hs, List.length_append, List.length_cons]
      rw [← Nat.add_assoc, size_dec_succ]
  · simp only [hs2, hs1, hs, List.length_append, List.length_cons]
    rw [← Nat.add_assoc, size_dec_succ]
  · intro b hba
    have : text ((m2.setNode a none).setList lp { l2 with size := size_dec l2.size }) b
        = text m2 b := by
      simp [text, hba]
    rw [this, htx2, htx1]

/-! ## Appending -/

theorem strdup_safe_eq (v : Option String) : strdup_safe v = v := by
  cases v <;> rfl

theorem insert_tail_spec {malloc : Allocator} (hm : malloc.Fresh) {m : Mem} {lp : Nat}
    {ps : List Nat} {l : DList} (hl : m.list lp = some l) (h : Chain m lp ps)
    (v : Option String) :
    ∃ m2, dlist_insert_tail malloc m (some lp) v = some (m2, some (malloc m.nodes)) ∧
      Chain m2 lp (ps ++ [malloc m.nodes]) ∧
      m2.list lp = some ⟨if ps = [] then some (malloc m.nodes) else l.head,
        some (malloc m.nodes), l.size + 1⟩ ∧
      m2.node (malloc m.nodes) = some ⟨v, l.tail, none⟩ ∧
      malloc m.nodes ∉ ps ∧ (∀ a ∈ ps, text m2 a = text m a) := by
  obtain ⟨l0, hl0, hf, hb, hs⟩ := h
  rw [hl] at hl0
  cases hl0
  have hfresh : m.node (malloc m.nodes) = none := hm m.nodes
  have hnot : malloc m.nodes ∉ ps := by
    intro hmem
    obtain ⟨nd, hnd⟩ := lseg_live hf hmem
    rw [hfresh] at hnd
    cases hnd
  obtain ⟨n, hn⟩ : ∃ n, n = malloc m.nodes := ⟨_, rfl⟩
  rw [← hn] at hfresh hnot ⊢
  rcases List.eq_nil_or_concat ps with e | ⟨qs, t, e⟩
  · subst e
    have hh : l.head = none := hf
    have ht : l.tail = none := hb
    have hl1 : ((m.setNode n (some ⟨v, none, none⟩)).setList lp
        ⟨some n, none, l.size⟩).list lp = some ⟨some n, none, l.size⟩ :=
      list_setList_same (by simpa using hl) _
    refine ⟨((m.setNode n (some ⟨v, none, none⟩)).setList lp
        ⟨some n, none, l.size⟩).setList lp ⟨some n, some n, l.size + 1⟩, ?_, ?_, ?_, ?_, hnot, ?_⟩
    · simp only [dlist_insert_tail, ← hn, hl, ht, strdup_safe_eq, hl1]
    · refine ⟨⟨some n, some n, l.size + 1⟩, list_setList_same hl1 _, ?_, ?_, ?_⟩
      · exact ⟨rfl, ⟨v, none, none⟩, by simp, rfl⟩
      · exact ⟨rfl, ⟨v, none, none⟩, by simp, rfl⟩
      · simp [hs]
    · rw [list_setList_same hl1]
      simp
    · simp [ht]
    · intro a ha
      cases ha
  · rw [List.concat_eq_append] at e
    subst e
    have hb2 : lseg Node.prev m l.tail (t :: qs.reverse) none := by
      simpa using hb
    obtain ⟨ht, tn, htn, hb3⟩ := hb2
    obtain ⟨tn2, htn2, hnext, hf2⟩ := lseg_last hf
    rw [htn] at htn2
    cases htn2
    have hnd := lseg_nodup hf
    have htq : t ∉ qs := by
      intro hc
      have := List.nodup_append.mp hnd
      exact this.2.2 hc (List.mem_singleton_self t) 
    have hnt : t ≠ n := by
      intro hc
      apply hnot
      simp [hc]
    have hm1 : (m.setNode n (some ⟨v, some t, none⟩)).node t = some tn := by
      simp [hnt, htn]
    refine ⟨(((m.setNode n (some ⟨v, some t, none⟩)).setNode t
        (some { tn with next := some n })).setList lp
        { l with tail := some n, size := l.size + 1 }), ?_, ?_, ?_, ?_, hnot, ?_⟩
    · simp only [dlist_insert_tail, ← hn, hl, ht, strdup_safe_eq, hm1, list_setNode]
    · refine ⟨⟨l.head, some n, l.size + 1⟩, list_setList_same (by simpa using hl) _, ?_, ?_, ?_⟩
      · refine lseg_snoc ⟨v, some t, none⟩
          (lseg_snoc { tn with next := some n } (lseg_frame ?_ hf2) ?_ rfl) ?_ rfl
        · intro a ha nd hnda
          have h1 : a ≠ t := fun e => htq (e ▸ ha)
          have h2 : a ≠ n := fun e => hnot (by simp [← e, ha])
          exact ⟨nd, by simp [h1, h2, hnda], rfl⟩
        · simp
        · simp [hnt.symm]
      · have e : (qs ++ [t] ++ [n]).reverse = n :: (qs ++ [t]).reverse := by simp
        rw [e]
        refine ⟨rfl, ⟨v, some t, none⟩, by simp [hnt.symm], ?_⟩
        rw [← ht]
        refine lseg_frame ?_ hb
        intro a ha nd hnda
        have ha2 : a ∈ qs ++ [t] := List.mem_reverse.mp ha
        have h2 : a ≠ n := fun e => hnot (e ▸ ha2)
        by_cases h1 : a = t
        · subst h1
          rw [htn] at hnda
          cases hnda
          exact ⟨{ tn with next := some n }, by simp, rfl⟩
        · exact ⟨nd, by simp [h1, h2, hnda], rfl⟩
      · simp [hs]
    · rw [list_setList_same (by simpa using hl)]
      simp
    · simp [hnt.symm, ht]
    · intro a ha
      have h2 : a ≠ n := fun e => hnot (e ▸ ha)
      by_cases h1 : a = t
      · subst h1
        simp [text, htn]
      · simp [text, h1, h2]

/-! ## Searching -/

theorem value_matches_eq (s v : Option String) : value_matches s v = spec_equal s v := by
  cases s <;> cases v <;> simp [value_matches, spec_equal]

theorem spec_equal_iff (s v : Option String) : spec_equal s v = true ↔ s = v := by
  cases s <;> cases v <;> simp [spec_equal]

theorem find_loop_lseg {m : Mem} {xs : List Nat} {c : Ptr} {fuel : Nat} (v : Option String)
    (h : lseg Node.next m c xs none) (hf : xs.length < fuel) :
    find_loop m v fuel c =
      some (xs[(xs.map (text m)).findIdx (fun s => spec_equal s v)]?) := by
  induction xs generalizing c fuel with
  | nil =>
    have hc : c = none := h
    subst hc
    cases fuel with
    | zero => simp at hf
    | succ f => rfl
  | cons a as ih =>
    obtain ⟨hc, nd, hnd, hrest⟩ := h
    subst hc
    cases fuel with
    | zero => simp at hf
    | succ f =>
      simp only [List.length_cons, Nat.add_lt_add_iff_right] at hf
      have ht : text m a = nd.s := by simp [text, hnd]
      simp only [find_loop, hnd, value_matches_eq, List.map_cons, List.findIdx_cons, ht]
      cases hv : spec_equal nd.s v with
      | true => simp
      | false => simp [ih hrest hf]

theorem find_first_chain {m : Mem} {lp : Nat} {ps : List Nat} (h : Chain m lp ps)
    (v : Option String) :
    dlist_find_first m (some lp) v =
      some (m, ps[(ps.map (text m)).findIdx (fun s => spec_equal s v)]?) := by
  obtain ⟨l, hl, hf, _, _⟩ := h
  simp only [dlist_find_first, hl,
    find_loop_lseg v hf (Nat.lt_succ_of_le (lseg_length_le hf))]

theorem findIdx_first {α : Type} (p : α → Bool) (vs : List α) :
    (∀ j t, j < vs.findIdx p → vs[j]? = some t → p t = false) ∧
    (vs.findIdx p < vs.length → ∃ s, vs[vs.findIdx p]? = some s ∧ p s = true) := by
  constructor
  · intro j t hj ht
    have hlt : j < vs.length := Nat.lt_of_lt_of_le hj (List.findIdx_le_length p)
    have e := List.not_of_lt_findIdx hj
    rw [List.getElem?_eq_getElem hlt] at ht
    cases ht
    exact e
  · intro hlt
    exact ⟨vs[vs.findIdx p], List.getElem?_eq_getElem hlt, List.findIdx_getElem⟩

theorem find_first_result {m : Mem} {lp : Nat} {ps : List Nat} {vs : List (Option String)}
    (hw : WellFormed m lp) (hp : forward_nodes m lp = some ps)
    (hv : forward_values m lp = some vs) (v : Option String) :
    vs = ps.map (text m) ∧ dlist_find_first m (some lp) v =
      some (m, ps[vs.findIdx (fun s => spec_equal s v)]?) := by
  have hc := chain_of_forward hw hp
  have hvs : vs = ps.map (text m) := by
    have e := hc.forward_values
    rw [hv] at e
    exact Option.some.inj e
  exact ⟨hvs, by rw [hvs]; exact find_first_chain hc v⟩

theorem split_at {α : Type} {ps : List α} {i : Nat} {a : α} (h : ps[i]? = some a) :
    ∃ front back, ps = front ++ a :: back ∧ front.length = i := by
  obtain ⟨hi, e⟩ := List.getElem?_eq_some.mp h
  refine ⟨ps.take i, ps.drop (i + 1), ?_, ?_⟩
  · rw [← e, ← List.drop_eq_getElem_cons hi, List.take_append_drop]
  · simp
    omega

theorem eraseIdx_middle {α : Type} (front back : List α) (a : α) :
    (front ++ a :: back).eraseIdx front.length = front ++ back := by
  rw [List.eraseIdx_append_of_length_le (Nat.le_refl _)]
  simp

theorem fruit_built : (dlist_init blank (some 0)).bind (fun m =>
    append_all first_fit m (some 0)
      [some "apple", some "banana", some "cherry", some "banana"]) = some fruit := by
  decide

theorem delete_member_spec (m : Mem) (lp : Nat) (l : DList) (ps : List Nat)
    (vs : List (Option String)) (i a : Nat) (hw : WellFormed m lp)
    (hl : m.list lp = some l) (hp : forward_nodes m lp = some ps)
    (hv : forward_values m lp = some vs) (hi : ps[i]? = some a) :
    ∃ m2 l2, dlist_delete_node m (some lp) (some a) = some (m2, 1) ∧
      Chain m2 lp (ps.eraseIdx i) ∧ forward_values m2 lp = some (vs.eraseIdx i) ∧
      m2.list lp = some l2 ∧ l2.size + 1 = l.size ∧ l.size = vs.length ∧
      m2.node a = none ∧ (∀ b, b ≠ a → text m2 b = text m b) := by
  have hc := chain_of_forward hw hp
  have hvs : vs = ps.map (text m) := by
    have e := hc.forward_values
    rw [hv] at e
    exact Option.some.inj e
  obtain ⟨front, back, e, hlen⟩ := split_at hi
  subst e
  subst hlen
  obtain ⟨m2, l2, hrun, hc2, hl2, hsz, hfree, htxt⟩ := delete_node_spec hl hc
  have hsz0 : l.size = (front ++ a :: back).length := by
    obtain ⟨l0, hl0, _, _, hs⟩ := hc
    rw [hl] at hl0
    cases hl0
    exact hs
  have hnodup : (front ++ a :: back).Nodup := by
    obtain ⟨_, _, hf, _, _⟩ := hc
    exact lseg_nodup hf
  have hne : ∀ b ∈ front ++ back, b ≠ a := by
    intro b hb e
    subst e
    rcases List.mem_append.mp hb with h1 | h1
    · exact (List.nodup_append.mp hnodup).2.2 h1 (List.mem_cons_self b back)
    · exact (List.nodup_cons.mp (List.nodup_append.mp hnodup).2.1).1 h1
  refine ⟨m2, l2, hrun, ?_, ?_, hl2, hsz, ?_, hfree, htxt⟩
  · rw [eraseIdx_middle]
    exact hc2
  · rw [hc2.forward_values, hvs]
    have e1 : (front ++ back).map (text m2) = (front ++ back).map (text m) :=
      List.map_congr_left (fun b hb => htxt b (hne b hb))
    have e2 : (front ++ a :: back).map (text m) =
        front.map (text m) ++ text m a :: back.map (text m) := by simp
    have e3 := eraseIdx_middle (front.map (text m)) (back.map (text m)) (text m a)
    rw [List.length_map] at e3
    rw [e1, e2, e3, List.map_append]
  · simp [hvs, hsz0]

theorem eraseIdx_findIdx {α : Type} (p : α → Bool) (vs : List α) :
    vs.eraseIdx (vs.findIdx p) = vs.eraseP p := by
  induction vs with
  | nil => rfl
  | cons x xs ih =>
    rw [List.findIdx_cons]
    cases hx : p x with
    | true => simp [List.eraseP_cons, hx]
    | false => simp [List.eraseP_cons, hx, ih]

theorem exists_after_eraseP {α : Type} (p : α → Bool) (vs : List α)
    (h : 2 ≤ (vs.filter p).length) : ∃ s ∈ vs.eraseP p, p s = true := by
  induction vs with
  | nil => simp at h
  | cons x xs ih =>
    cases hx : p x with
    | true =>
      simp only [List.filter_cons, hx, if_true, List.length_cons] at h
      have hpos : 0 < (xs.filter p).length := by omega
      obtain ⟨s, hs⟩ := List.exists_mem_of_length_pos hpos
      obtain ⟨hs1, hs2⟩ := List.mem_filter.mp hs
      exact ⟨s, by simp [List.eraseP_cons, hx, hs1], hs2⟩
    | false =>
      simp only [List.filter_cons, hx] at h
      obtain ⟨s, hs1, hs2⟩ := ih (by simpa using h)
      exact ⟨s, by simp [List.eraseP_cons, hx, hs1], hs2⟩

theorem delete_first_match_spec {m : Mem} {lp : Nat} {vs : List (Option String)}
    (hw : WellFormed m lp) (hv : forward_values m lp = some vs) (v : Option String) :
    (∃ r, dlist_find_first m (some lp) v = some (m, r) ∧
      dlist_delete_first_match m (some lp) v = dlist_delete_node m (some lp) r) ∧
    ∃ m2 ret, dlist_delete_first_match m (some lp) v = some (m2, ret) ∧
      (ret = 1 ↔ ∃ s ∈ vs, spec_equal s v = true) ∧
      (ret = 1 → WellFormed m2 lp ∧
        forward_values m2 lp = some (vs.eraseP (fun s => spec_equal s v)) ∧
        (m2.list lp).map DList.size = some (vs.length - 1)) ∧
      (ret ≠ 1 → ret = 0 ∧ m2 = m) := by
  obtain ⟨l, ps, hl, hp, _, _⟩ := (wellFormed_def m lp).mp hw
  obtain ⟨hvs, hfind⟩ := find_first_result hw hp hv v
  have hrun : dlist_delete_first_match m (some lp) v =
      dlist_delete_node m (some lp) (ps[vs.findIdx (fun s => spec_equal s v)]?) := by
    simp only [dlist_delete_first_match, hfind]
  refine ⟨⟨_, hfind, hrun⟩, ?_⟩
  have hlen : vs.length = ps.length := by simp [hvs]
  by_cases hex : ∃ s ∈ vs, spec_equal s v = true
  · have hlt : vs.findIdx (fun s => spec_equal s v) < ps.length := by
      rw [← hlen]
      exact List.findIdx_lt_length.mpr hex
    have hget := List.getElem?_eq_getElem hlt
    obtain ⟨m2, l2, hdel, hc2, hv2, hl2, hsz, hsz0, _, _⟩ :=
      delete_member_spec m lp l ps vs _ _ hw hl hp hv hget
    refine ⟨m2, 1, by rw [hrun, hget, hdel], by simp [hex],
      fun _ => ⟨hc2.wellFormed, ?_, ?_⟩, fun hc => absurd rfl hc⟩
    · rw [hv2, eraseIdx_findIdx]
    · simp only [hl2, Option.map_some', Option.some.injEq]
      omega
  · have hall : ∀ s ∈ vs, spec_equal s v = false := by
      intro s hs
      cases hsv : spec_equal s v with
      | false => rfl
      | true => exact absurd ⟨s, hs, hsv⟩ hex
    have hidx := List.findIdx_eq_length.mpr hall
    have hget : ps[vs.findIdx (fun s => spec_equal s v)]? = none := by
      rw [hidx, hlen]
      exact List.getElem?_eq_none (Nat.le_refl _)
    refine ⟨m, 0, by rw [hrun, hget]; rfl, by simp [hex], fun hc => by simp at hc,
      fun _ => ⟨rfl, rfl⟩⟩

theorem find_first_some {m : Mem} {lp : Nat} {vs : List (Option String)}
    (hw : WellFormed m lp) (hv : forward_values m lp = some vs) (v : Option String)
    (hex : ∃ s ∈ vs, spec_equal s v = true) :
    ∃ a, dlist_find_first m (some lp) v = some (m, some a) := by
  obtain ⟨l, ps, hl, hp, hb, hs⟩ := (wellFormed_def m lp).mp hw
  obtain ⟨hvs, hfind⟩ := find_first_result hw hp hv v
  have hlt : vs.findIdx (fun s => spec_equal s v) < ps.length := by
    have hlen : vs.length = ps.length := by simp [hvs]
    rw [← hlen]
    exact List.findIdx_lt_length.mpr hex
  rw [List.getElem?_eq_getElem hlt] at hfind
  exact ⟨_, hfind⟩

theorem unlink_prev_live {m : Mem} {lp : Nat} {l : DList} {a : Nat} {nd : Node}
    (hl : m.list lp = some l) (hnd : m.node a = some nd)
    (hp : ∀ p, nd.prev = some p → ∃ pn, m.node p = some pn) :
    ∃ m1 l1, unlink_prev m lp nd = some m1 ∧ m1.node a = some nd ∧ m1.list lp = some l1 ∧
      ∀ b nb, m.node b = some nb → ∃ nb1, m1.node b = some nb1 := by
  cases hprev : nd.prev with
  | none =>
    refine ⟨m.setList lp { l with head := nd.next }, _, ?_, hnd, list_setList_same hl _,
      fun b nb hb => ⟨nb, hb⟩⟩
    simp only [unlink_prev, hprev, hl]
  | some p =>
    obtain ⟨pn, hpn⟩ := hp p hprev
    refine ⟨m.setNode p (some { pn with next := nd.next }), l, ?_, ?_, hl, ?_⟩
    · simp only [unlink_prev, hprev, hpn]
    · by_cases hpa : a = p
      · subst hpa
        rw [hnd] at hpn
        cases hpn
        simp
      · simp [hpa, hnd]
    · intro b nb hb
      by_cases hbp : b = p
      · exact ⟨{ pn with next := nd.next }, by simp [hbp]⟩
      · exact ⟨nb, by simp [hbp, hb]⟩

theorem unlink_next_live {m : Mem} {lp : Nat} {l : DList} {a : Nat} {nd : Node}
    (hl : m.list lp = some l) (hnd : m.node a = some nd)
    (hq : ∀ q, nd.next = some q → ∃ qn, m.node q = some qn) :
    ∃ m1 l1, unlink_next m lp nd = some m1 ∧ m1.node a = some nd ∧ m1.list lp = some l1 := by
  cases hnext : nd.next with
  | none =>
    refine ⟨m.setList lp { l with tail := nd.prev }, _, ?_, hnd, list_setList_same hl _⟩
    simp only [unlink_next, hnext, hl]
  | some q =>
    obtain ⟨qn, hqn⟩ := hq q hnext
    refine ⟨m.setNode q (some { qn with prev := nd.prev }), l, ?_, ?_, hl⟩
    · simp only [unlink_next, hnext, hqn]
    · by_cases hqa : a = q
      · subst hqa
        rw [hnd] at hqn
        cases hqn
        simp
      · simp [hqa, hnd]

theorem delete_first_match_chain {m : Mem} {lp : Nat} {ps : List Nat} (h : Chain m lp ps)
    (v : Option String) :
    ∃ m2 ret ps2, dlist_delete_first_match m (some lp) v = some (m2, ret) ∧
      Chain m2 lp ps2 ∧
      ((ret = 1 ∧ ps2.length + 1 = ps.length) ∨ (ret = 0 ∧ m2 = m ∧ ps2 = ps)) := by
  obtain ⟨_, m2, ret, hrun, hret, hone, hzero⟩ :=
    delete_first_match_spec h.wellFormed h.forward_values v
  by_cases h1 : ret = 1
  · obtain ⟨hw2, _, hsz⟩ := hone h1
    obtain ⟨ps2, hc2⟩ := (wellFormed_iff_chain m2 lp).mp hw2
    refine ⟨m2, ret, ps2, hrun, hc2, Or.inl ⟨h1, ?_⟩⟩
    obtain ⟨s, hs, _⟩ := hret.mp h1
    have hpos : 0 < ps.length := by
      have := List.length_pos_of_mem hs
      simpa using this
    obtain ⟨l2, hl2, _, _, hs2⟩ := hc2
    rw [hl2] at hsz
    simp only [Option.map_some', Option.some.injEq, List.length_map] at hsz
    omega
  · obtain ⟨h0, e⟩ := hzero h1
    subst e
    exact ⟨m2, ret, ps, hrun, h, Or.inr ⟨h0, rfl, rfl⟩⟩

theorem run_spec {malloc : Allocator} (hm : malloc.Fresh) (lp : Nat) (ops : List Op) :
    ∀ (m : Mem) (ps : List Nat), Chain m lp ps → member_handles malloc lp m ops →
      ∃ m2 k j ps2, run malloc lp m ops = some (m2, k, j) ∧ Chain m2 lp ps2 ∧
        ps2.length + j = ps.length + k ∧ k = ops.countP Op.is_insert := by
  induction ops with
  | nil =>
    intro m ps hc _
    exact ⟨m, 0, 0, ps, rfl, hc, rfl, rfl⟩
  | cons op ops ih =>
    intro m ps hc hok
    obtain ⟨hop, hrest⟩ := hok
    have key : ∃ m1 k1 j1 ps1, apply_op malloc lp m op = some (m1, k1, j1) ∧
        Chain m1 lp ps1 ∧ ps1.length + j1 = ps.length + k1 ∧
        k1 = if op.is_insert then 1 else 0 := by
      cases op with
      | insert_tail v =>
        obtain ⟨l, hl, _⟩ := hc
        obtain ⟨m1, hrun, hc1, _⟩ := insert_tail_spec hm hl ⟨l, hl, ‹_›⟩ v
        exact ⟨m1, 1, 0, _, by simp only [apply_op, hrun], hc1, by simp, rfl⟩
      | delete_node n =>
        cases n with
        | none => exact ⟨m, 0, 0, ps, rfl, hc, rfl, rfl⟩
        | some a =>
          obtain ⟨qs, hq, ha⟩ := hop
          rw [hc.forward_nodes] at hq
          cases hq
          obtain ⟨front, back, e⟩ := List.append_of_mem ha
          subst e
          obtain ⟨l, hl, _⟩ := hc
          obtain ⟨m1, l1, hrun, hc1, _⟩ := delete_node_spec hl ⟨l, hl, ‹_›⟩
          refine ⟨m1, 0, 1, _, by simp only [apply_op, hrun]; rfl, hc1, ?_, rfl⟩
          simp
          omega
      | delete_first_match v =>
        obtain ⟨m1, ret, ps1, hrun, hc1, hcase⟩ := delete_first_match_chain hc v
        rcases hcase with ⟨h1, hlen⟩ | ⟨h0, _, e⟩
        · subst h1
          exact ⟨m1, 0, 1, ps1, by simp only [apply_op, hrun]; rfl, hc1, by omega, rfl⟩
        · subst h0
          subst e
          exact ⟨m1, 0, 0, ps1, by simp only [apply_op, hrun]; rfl, hc1, rfl, rfl⟩
    obtain ⟨m1, k1, j1, ps1, hstep, hc1, hcount, hk1⟩ := key
    rw [hstep] at hrest
    obtain ⟨m2, k2, j2, ps2, hrun2, hc2, hcount2, hk2⟩ := ih m1 ps1 hc1 hrest
    refine ⟨m2, k1 + k2, j1 + j2, ps2, by simp only [run, hstep, hrun2], hc2, by omega, ?_⟩
    rw [List.countP_cons, hk1, hk2]
    omega

theorem find_loop_sound {m : Mem} {v : Option String} {fuel : Nat} {c : Ptr} {a : Nat}
    (h : find_loop m v fuel c = some (some a)) :
    ∃ nd, m.node a = some nd ∧ value_matches nd.s v = true := by
  induction fuel generalizing c with
  | zero => simp [find_loop] at h
  | succ f ih =>
    cases c with
    | none => simp [find_loop] at h
    | some b =>
      simp only [find_loop] at h
      cases hnd : m.node b with
      | none => simp [hnd] at h
      | some nd =>
        simp only [hnd] at h
        by_cases hv : value_matches nd.s v = true
        · simp only [hv, if_true, Option.some.injEq] at h
          subst h
          exact ⟨nd, hnd, hv⟩
        · simp only [hv] at h
          exact ih h

theorem find_first_same_memory {m m2 : Mem} {list r : Ptr} {v : Option String}
    (h : dlist_find_first m list v = some (m2, r)) :
    m2 = m ∧ ∃ lp l, list = some lp ∧ m.list lp = some l ∧
      find_loop m v (m.nodes.length + 1) l.head = some r := by
  cases list with
  | none => simp [dlist_find_first] at h
  | some lp =>
    simp only [dlist_find_first] at h
    cases hl : m.list lp with
    | none => simp [hl] at h
    | some l =>
      simp only [hl] at h
      cases hr : find_loop m v (m.nodes.length + 1) l.head with
      | none => simp [hr] at h
      | some r2 =>
        simp only [hr, Option.some.injEq, Prod.mk.injEq] at h
        obtain ⟨e1, e2⟩ := h
        subst e1
        subst e2
        exact ⟨rfl, lp, l, rfl, hl, hr⟩

/-- The assertions of `test_basic_ops` on the model, in the order of the
source: sizes 4, 3, 2, 1, 0 and the results of the searches and removals. -/
theorem test_basic_ops_trace :
    (fruit.list 0).map DList.size = some 4 ∧
    dlist_find_first fruit (some 0) (some "banana") = some (fruit, some 1) ∧
    dlist_find_first fruit (some 0) (some "durian") = some (fruit, none) ∧
    ∃ m1 m2 m3 m4, dlist_delete_first_match fruit (some 0) (some "banana") = some (m1, 1) ∧
      (m1.list 0).map DList.size = some 3 ∧
      dlist_find_first m1 (some 0) (some "banana") = some (m1, some 3) ∧
      dlist_delete_first_match m1 (some 0) (some "apple") = some (m2, 1) ∧
      (m2.list 0).map DList.size = some 2 ∧
      dlist_delete_first_match m2 (some 0) (some "banana") = some (m3, 1) ∧
      (m3.list 0).map DList.size = some 1 ∧
      dlist_delete_first_match m3 (some 0) (some "cherry") = some (m4, 1) ∧
      m4.list 0 = some ⟨none, none, 0⟩ ∧
      dlist_delete_first_match m4 (some 0) (some "nope") = some (m4, 0) ∧
      dlist_clear m4 (some 0) = some m4 :=
  ⟨rfl, rfl, rfl, _, _, _, _, rfl, rfl, rfl, rfl, rfl, rfl, rfl, rfl, rfl, rfl, rfl⟩

/-! ## Runs of appends -/

theorem backward_of_lseg {m : Mem} {xs : List Nat} {c : Ptr} {fuel : Nat}
    (h : lseg Node.prev m c xs none) (hf : xs.length < fuel) :
    backward_loop m fuel c = some (xs.map (text m)) := by
  induction xs generalizing c fuel with
  | nil =>
    have hc : c = none := h
    subst hc
    cases fuel with
    | zero => simp at hf
    | succ f => rfl
  | cons a as ih =>
    obtain ⟨hc, nd, hnd, hrest⟩ := h
    subst hc
    cases fuel with
    | zero => simp at hf
    | succ f =>
      simp only [List.length_cons, Nat.add_lt_add_iff_right] at hf
      simp [backward_loop, hnd, ih hrest hf, text]

theorem Chain.backward_values {m : Mem} {lp : Nat} {ps : List Nat} (h : Chain m lp ps) :
    backward_values m lp = some ((ps.map (text m)).reverse) := by
  obtain ⟨l, hl, _, hb, _⟩ := h
  simp only [DllStrings.backward_values, hl]
  rw [backward_of_lseg hb (Nat.lt_succ_of_le (lseg_length_le hb)), List.map_reverse]

theorem append_all_chain {malloc : Allocator} (hm : malloc.Fresh) (lp : Nat)
    (vs : List (Option String)) :
    ∀ (m : Mem) (ps : List Nat), Chain m lp ps →
      ∃ m2 qs, append_all malloc m (some lp) vs = some m2 ∧ Chain m2 lp (ps ++ qs) ∧
        qs.map (text m2) = vs ∧ (∀ a ∈ ps, text m2 a = text m a) := by
  induction vs with
  | nil =>
    intro m ps hc
    exact ⟨m, [], rfl, by simpa using hc, rfl, fun _ _ => rfl⟩
  | cons v vs ih =>
    intro m ps hc
    obtain ⟨l, hl, hrest⟩ := hc
    obtain ⟨m1, hrun, hc1, _, hn1, _, htxt1⟩ := insert_tail_spec hm hl ⟨l, hl, hrest⟩ v
    obtain ⟨m2, qs, hrun2, hc2, hqs, htxt2⟩ := ih m1 _ hc1
    refine ⟨m2, malloc m.nodes :: qs, ?_, ?_, ?_, ?_⟩
    · simp only [append_all, hrun, hrun2]
    · simpa using hc2
    · have e1 : text m2 (malloc m.nodes) = v := by
        rw [htxt2 _ (by simp)]
        simp [text, hn1]
      simp [e1, hqs]
    · intro a ha
      rw [htxt2 a (by simp [ha]), htxt1 a ha]

/-! ## Printing -/

theorem print_item_eq (v : Option String) :
    print_item v = "\"" ++ v.getD "(null)" ++ "\"" := by
  cases v <;> rfl

theorem print_loop_lseg {m : Mem} {xs : List Nat} {c : Ptr} {fuel : Nat}
    (h : lseg Node.next m c xs none) (hf : xs.length < fuel) :
    print_loop m fuel c = some (spec_items (xs.map (text m))) := by
  induction xs generalizing c fuel with
  | nil =>
    have hc : c = none := h
    subst hc
    cases fuel with
    | zero => simp at hf
    | succ f => rfl
  | cons a as ih =>
    obtain ⟨hc, nd, hnd, hrest⟩ := h
    subst hc
    cases fuel with
    | zero => simp at hf
    | succ f =>
      simp only [List.length_cons, Nat.add_lt_add_iff_right] at hf
      have ht : text m a = nd.s := by simp [text, hnd]
      simp only [print_loop, hnd, ih hrest hf, List.map_cons, ht, print_item_eq]
      cases as with
      | nil =>
        have hn : nd.next = none := hrest
        simp [hn, spec_items]
      | cons b bs =>
        obtain ⟨hn, _⟩ := hrest
        simp [hn, spec_items]

theorem print_chain {m : Mem} {lp : Nat} {ps : List Nat} (h : Chain m lp ps) :
    dlist_print m (some lp) = some (render_as "DList" (ps.map (text m))) := by
  obtain ⟨l, hl, hf, _, hs⟩ := h
  have e : "DList" ++ "(size=" = "DList(size=" := by decide
  simp only [dlist_print, hl, print_loop_lseg hf (Nat.lt_succ_of_le (lseg_length_le hf)),
    render_as, hs, List.length_map, e]

/-! ## Ends of the list -/

theorem chain_ends {m : Mem} {lp : Nat} {ps : List Nat} {l : DList}
    (hl : m.list lp = some l) (h : Chain m lp ps) :
    l.head = ps.head? ∧ l.tail = ps.getLast? ∧ l.size = ps.length := by
  obtain ⟨l0, hl0, hf, hb, hs⟩ := h
  rw [hl] at hl0
  cases hl0
  refine ⟨(lseg_index hf).1, ?_, hs⟩
  rw [(lseg_index hb).1, List.head?_reverse]

theorem chain_first_prev {m : Mem} {lp : Nat} {a : Nat} {rest : List Nat}
    (h : Chain m lp (a :: rest)) : ∃ nd, m.node a = some nd ∧ nd.prev = none := by
  obtain ⟨_, _, _, hb, _⟩ := h
  rw [List.reverse_cons] at hb
  obtain ⟨nd, hnd, hk, _⟩ := lseg_last hb
  exact ⟨nd, hnd, hk⟩

theorem chain_last_next {m : Mem} {lp : Nat} {a : Nat} {front : List Nat}
    (h : Chain m lp (front ++ [a])) : ∃ nd, m.node a = some nd ∧ nd.next = none := by
  obtain ⟨_, _, hf, _, _⟩ := h
  obtain ⟨nd, hnd, hk, _⟩ := lseg_last hf
  exact ⟨nd, hnd, hk⟩

/-! ## Draining -/

theorem perm_eraseP_of_cons {ws vs : List (Option String)} {w : Option String}
    (h : (w :: ws).Perm vs) : ws.Perm (vs.eraseP (fun s => spec_equal s w)) := by
  have hmem : w ∈ vs := h.subset (List.mem_cons_self w ws)
  have hpw : (fun s => spec_equal s w) w = true := (spec_equal_iff w w).mpr rfl
  obtain ⟨a, l1, l2, _, hpa, e, he⟩ :=
    @List.exists_of_eraseP _ (fun s => spec_equal s w) vs w hmem hpw
  have ea : a = w := (spec_equal_iff a w).mp hpa
  subst ea
  rw [he]
  rw [e] at h
  exact (h.trans List.perm_middle).cons_inv

theorem drain_spec (lp : Nat) (ws : List (Option String)) :
    ∀ (m : Mem) (vs : List (Option String)), WellFormed m lp →
      forward_values m lp = some vs → ws.Perm vs →
      ∃ m3, drain m (some lp) ws = some (m3, List.replicate ws.length 1) ∧
        WellFormed m3 lp ∧ forward_values m3 lp = some [] := by
  induction ws with
  | nil =>
    intro m vs hw hv hperm
    have e := hperm.nil_eq
    subst e
    exact ⟨m, rfl, hw, hv⟩
  | cons w ws ih =>
    intro m vs hw hv hperm
    obtain ⟨_, m1, ret, hrun, hret, hone, _⟩ := delete_first_match_spec hw hv w
    have hmem : w ∈ vs := hperm.subset (List.mem_cons_self w ws)
    have h1 : ret = 1 := hret.mpr ⟨w, hmem, (spec_equal_iff w w).mpr rfl⟩
    subst h1
    obtain ⟨hw1, hv1, _⟩ := hone rfl
    obtain ⟨m3, hrun3, hw3, hv3⟩ := ih m1 _ hw1 hv1 (perm_eraseP_of_cons hperm)
    refine ⟨m3, ?_, hw3, hv3⟩
    simp only [drain, hrun, hrun3, List.length_cons, List.replicate_succ]

theorem empty_list_facts {m : Mem} {lp : Nat} (hw : WellFormed m lp)
    (hv : forward_values m lp = some []) :
    m.list lp = some ⟨none, none, 0⟩ ∧
    ∀ x, dlist_delete_first_match m (some lp) x = some (m, 0) := by
  obtain ⟨ps, hc⟩ := (wellFormed_iff_chain m lp).mp hw
  have e := hc.forward_values
  rw [hv] at e
  have e2 : ps = [] := by
    have := Option.some.inj e
    simpa using this.symm
  subst e2
  obtain ⟨l, hl, _⟩ := hc
  obtain ⟨hh, ht, hs⟩ := chain_ends hl ⟨l, hl, ‹_›⟩
  constructor
  · rw [hl]
    cases l
    simp only [List.head?_nil, List.getLast?_nil, List.length_nil] at hh ht hs
    subst hh
    subst ht
    subst hs
    rfl
  · intro x
    obtain ⟨_, m2, ret, hrun, hret, _, hzero⟩ := delete_first_match_spec hw hv x
    have hne : ret ≠ 1 := by
      intro h1
      obtain ⟨s, hs, _⟩ := hret.mp h1
      cases hs
    obtain ⟨h0, e3⟩ := hzero hne
    subst h0
    subst e3
    exact hrun

/-! ## What a removal leaves alone -/

theorem abc_built : (dlist_init blank (some 0)).bind (fun m =>
    append_all first_fit m (some 0) [some "A", some "B", some "C"]) = some abc := by
  decide

theorem hello_world_built : (dlist_init blank (some 0)).bind (fun m =>
    append_all first_fit m (some 0) [some "hello", some "world"]) = some hello_world := by
  decide

theorem find_first_none_of_chain {m : Mem} {lp : Nat} {ps : List Nat} (h : Chain m lp ps)
    (v : Option String) (hno : ∀ c ∈ ps, spec_equal (text m c) v = false) :
    dlist_find_first m (some lp) v = some (m, none) := by
  rw [find_first_chain h v]
  have hidx : (ps.map (text m)).findIdx (fun s => spec_equal s v) = ps.length := by
    have := List.findIdx_eq_length.mpr (fun s hs => by
      obtain ⟨c, hc, e⟩ := List.mem_map.mp hs
      rw [← e]
      exact hno c hc : ∀ s ∈ ps.map (text m), (fun s => spec_equal s v) s = false)
    simpa using this
  rw [hidx, List.getElem?_eq_none (Nat.le_refl _)]

theorem find_first_some_of_chain {m : Mem} {lp : Nat} {ps : List Nat} (h : Chain m lp ps)
    (v : Option String) {c : Nat} (hc : c ∈ ps) (hv : text m c = v) :
    ∃ r, r ∈ ps ∧ dlist_find_first m (some lp) v = some (m, some r) := by
  rw [find_first_chain h v]
  have hlt : (ps.map (text m)).findIdx (fun s => spec_equal s v) < ps.length := by
    have := List.findIdx_lt_length.mpr (⟨text m c, List.mem_map.mpr ⟨c, hc, rfl⟩,
      (spec_equal_iff _ _).mpr hv⟩ :
        ∃ s ∈ ps.map (text m), (fun s => spec_equal s v) s = true)
    simpa using this
  rw [List.getElem?_eq_getElem hlt]
  exact ⟨_, List.getElem_mem _, rfl⟩

/-! ## The nodes of a chain are determined -/

theorem chain_links {m : Mem} {lp : Nat} {ps : List Nat} (h : Chain m lp ps) :
    ∀ (i a : Nat), ps[i]? = some a → ∃ nd, m.node a = some nd ∧
      nd.next = ps[i + 1]? ∧ nd.prev = if i = 0 then none else ps[i - 1]? := by
  obtain ⟨l, hl, hf, hb, hs⟩ := h
  obtain ⟨_, hnext⟩ := lseg_index hf
  obtain ⟨_, hprev⟩ := lseg_index hb
  intro i a hi
  obtain ⟨hlt, _⟩ := List.getElem?_eq_some.mp hi
  obtain ⟨nd, hnd, hk⟩ := hnext i a hi
  have e1 : ps.reverse[ps.length - 1 - i]? = some a := by
    rw [List.getElem?_reverse' (ps.length - 1 - i) i (by omega)]
    exact hi
  obtain ⟨nd2, hnd2, hk2⟩ := hprev _ a e1
  rw [hnd] at hnd2
  cases hnd2
  refine ⟨nd, hnd, hk, ?_⟩
  rw [hk2]
  by_cases h0 : i = 0
  · subst h0
    simp only [if_true]
    apply List.getElem?_eq_none
    rw [List.length_reverse]
    omega
  · simp only [h0, if_false]
    exact List.getElem?_reverse' (ps.length - 1 - i + 1) (i - 1) (by omega)

theorem chain_nodes_eq {m m2 : Mem} {lp : Nat} {ps : List Nat} (h : Chain m lp ps)
    (h2 : Chain m2 lp ps) (ht : ∀ a ∈ ps, text m2 a = text m a) :
    m2.list lp = m.list lp ∧ ∀ a ∈ ps, m2.node a = m.node a := by
  constructor
  · obtain ⟨l, hl, hr⟩ := h
    obtain ⟨l2, hl2, hr2⟩ := h2
    obtain ⟨e1, e2, e3⟩ := chain_ends hl ⟨l, hl, hr⟩
    obtain ⟨f1, f2, f3⟩ := chain_ends hl2 ⟨l2, hl2, hr2⟩
    rw [hl, hl2]
    cases l
    cases l2
    simp only at e1 e2 e3 f1 f2 f3
    simp only [Option.some.injEq, DList.mk.injEq]
    exact ⟨f1.trans e1.symm, f2.trans e2.symm, f3.trans e3.symm⟩
  · intro a ha
    obtain ⟨i, hi⟩ := List.getElem?_of_mem ha
    obtain ⟨nd, hnd, hn, hp⟩ := chain_links h i a hi
    obtain ⟨nd2, hnd2, hn2, hp2⟩ := chain_links h2 i a hi
    have hs := ht a ha
    simp only [text, hnd, hnd2] at hs
    rw [hnd, hnd2]
    cases nd
    cases nd2
    simp only at hn hp hn2 hp2 hs
    simp only [Option.some.injEq, Node.mk.injEq]
    exact ⟨hs, hp2.trans hp.symm, hn2.trans hn.symm⟩

/-! ## The search stays in the list -/

theorem find_visits_lseg {m : Mem} {xs : List Nat} {c : Ptr} {fuel : Nat} (v : Option String)
    (h : lseg Node.next m c xs none) (hf : xs.length < fuel) :
    ∃ k, find_visits m v fuel c = some k ∧ k ≤ xs.length := by
  induction xs generalizing c fuel with
  | nil =>
    have hc : c = none := h
    subst hc
    cases fuel with
    | zero => simp at hf
    | succ f => exact ⟨0, rfl, Nat.le_refl _⟩
  | cons a as ih =>
    obtain ⟨hc, nd, hnd, hrest⟩ := h
    subst hc
    cases fuel with
    | zero => simp at hf
    | succ f =>
      simp only [List.length_cons, Nat.add_lt_add_iff_right] at hf
      obtain ⟨k, hk, hle⟩ := ih hrest hf
      by_cases hv : value_matches nd.s v = true
      · exact ⟨1, by simp [find_visits, hnd, hv], by simp⟩
      · exact ⟨k + 1, by simp [find_visits, hnd, hv, hk], by simpa using hle⟩

theorem lseg_of_values {m : Mem} {vs : List (Option String)} {c : Ptr} {fuel : Nat}
    (h : values_loop m fuel c = some vs) :
    ∃ xs, lseg Node.next m c xs none ∧ vs = xs.map (text m) := by
  induction fuel generalizing c vs with
  | zero => simp [values_loop] at h
  | succ f ih =>
    cases c with
    | none =>
      simp [values_loop] at h
      subst h
      exact ⟨[], rfl, rfl⟩
    | some a =>
      simp only [values_loop] at h
      cases hnd : m.node a with
      | none => simp [hnd] at h
      | some nd =>
        simp only [hnd, Option.map_eq_some'] at h
        obtain ⟨r, hr, e⟩ := h
        subst e
        obtain ⟨xs, hx, hv⟩ := ih hr
        refine ⟨a :: xs, ⟨rfl, nd, hnd, hx⟩, ?_⟩
        simp [text, hnd, hv]

theorem print_of_values {m : Mem} {lp : Nat} {l : DList} {vs : List (Option String)}
    (hl : m.list lp = some l) (hv : forward_values m lp = some vs) :
    dlist_print m (some lp) =
      some ("DList(size=" ++ toString l.size ++ "): [" ++ spec_items vs ++ "]\n") := by
  simp only [forward_values, hl] at hv
  obtain ⟨xs, hx, e⟩ := lseg_of_values hv
  simp only [dlist_print, hl, print_loop_lseg hx (Nat.lt_succ_of_le (lseg_length_le hx)), e]

/-! ## What `dlist_delete_node` does to a live node -/

theorem unlink_prev_exact {m : Mem} {lp : Nat} {l : DList} {nd : Node}
    (hl : m.list lp = some l) (hp : ∀ p, nd.prev = some p → ∃ pn, m.node p = some pn) :
    ∃ m1, unlink_prev m lp nd = some m1 ∧
      (∀ b, m1.node b = (m.node b).map
        (fun nb => { nb with next := if nd.prev = some b then nd.next else nb.next })) ∧
      m1.list lp = some { l with head := if nd.prev = none then nd.next else l.head } ∧
      (∀ x, x ≠ lp → m1.list x = m.list x) := by
  cases hprev : nd.prev with
  | none =>
    refine ⟨m.setList lp { l with head := nd.next }, ?_, ?_, ?_, ?_⟩
    · simp only [unlink_prev, hprev, hl]
    · intro b
      cases hb : m.node b <;> simp [hb]
    · rw [list_setList_same hl]
      simp
    · intro x hx
      rw [list_setList]
      simp [hx]
  | some p =>
    obtain ⟨pn, hpn⟩ := hp p hprev
    refine ⟨m.setNode p (some { pn with next := nd.next }), ?_, ?_, ?_, ?_⟩
    · simp only [unlink_prev, hprev, hpn]
    · intro b
      by_cases hb : b = p
      · subst hb
        simp [hpn]
      · have hne : p ≠ b := fun e => hb e.symm
        cases hnb : m.node b <;> simp [hb, hne, hnb]
    · simp [hl]
    · intro x _
      rfl

theorem unlink_next_exact {m : Mem} {lp : Nat} {l : DList} {nd : Node}
    (hl : m.list lp = some l) (hq : ∀ q, nd.next = some q → ∃ qn, m.node q = some qn) :
    ∃ m1, unlink_next m lp nd = some m1 ∧
      (∀ b, m1.node b = (m.node b).map
        (fun nb => { nb with prev := if nd.next = some b then nd.prev else nb.prev })) ∧
      m1.list lp = some { l with tail := if nd.next = none then nd.prev else l.tail } ∧
      (∀ x, x ≠ lp → m1.list x = m.list x) := by
  cases hnext : nd.next with
  | none =>
    refine ⟨m.setList lp { l with tail := nd.prev }, ?_, ?_, ?_, ?_⟩
    · simp only [unlink_next, hnext, hl]
    · intro b
      cases hb : m.node b <;> simp [hb]
    · rw [list_setList_same hl]
      simp
    · intro x hx
      rw [list_setList]
      simp [hx]
  | some q =>
    obtain ⟨qn, hqn⟩ := hq q hnext
    refine ⟨m.setNode q (some { qn with prev := nd.prev }), ?_, ?_, ?_, ?_⟩
    · simp only [unlink_next, hnext, hqn]
    · intro b
      by_cases hb : b = q
      · subst hb
        simp [hqn]
      · have hne : q ≠ b := fun e => hb e.symm
        cases hnb : m.node b <;> simp [hb, hne, hnb]
    · simp [hl]
    · intro x _
      rfl

theorem delete_node_exact {m : Mem} {lp a : Nat} {l : DList} {nd : Node}
    (hl : m.list lp = some l) (hnd : m.node a = some nd)
    (hp : ∀ p, nd.prev = some p → ∃ pn, m.node p = some pn)
    (hq : ∀ q, nd.next = some q → ∃ qn, m.node q = some qn) :
    ∃ m2, dlist_delete_node m (some lp) (some a) = some (m2, 1) ∧
      m2.node a = none ∧
      (∀ b, b ≠ a → m2.node b = (m.node b).map (fun nb =>
        { s := nb.s,
          prev := if nd.next = some b then nd.prev else nb.prev,
          next := if nd.prev = some b then nd.next else nb.next })) ∧
      m2.list lp = some
        { head := if nd.prev = none then nd.next else l.head,
          tail := if nd.next = none then nd.prev else l.tail,
          size := size_dec l.size } ∧
      (∀ x, x ≠ lp → m2.list x = m.list x) := by
  obtain ⟨m1, hrun1, hnode1, hl1, hother1⟩ := unlink_prev_exact hl hp
  have hnd1 : m1.node a = some nd := by
    rw [hnode1 a, hnd]
    simp
  have hq1 : ∀ q, nd.next = some q → ∃ qn, m1.node q = some qn := by
    intro q hq2
    obtain ⟨qn, hqn⟩ := hq q hq2
    rw [hnode1 q, hqn]
    exact ⟨_, rfl⟩
  obtain ⟨m2, hrun2, hnode2, hl2, hother2⟩ := unlink_next_exact hl1 hq1
  have hnd2 : m2.node a = some nd := by
    rw [hnode2 a, hnd1]
    simp
  have hl3 : (m2.setNode a none).list lp =
      some { head := if nd.prev = none then nd.next else l.head,
             tail := if nd.next = none then nd.prev else l.tail,
             size := l.size } := by
    simpa using hl2
  refine ⟨(m2.setNode a none).setList lp
      { head := if nd.prev = none then nd.next else l.head,
        tail := if nd.next = none then nd.prev else l.tail,
        size := size_dec l.size }, ?_, ?_, ?_, ?_, ?_⟩
  · simp only [dlist_delete_node, hnd, hrun1, hnd1, hrun2, hnd2, hl3]
  · simp
  · intro b hb
    rw [node_setList, node_setNode, if_neg hb, hnode2 b, hnode1 b, Option.map_map]
    rfl
  · exact list_setList_same hl3 _
  · intro x hx
    rw [list_setList, if_neg hx, list_setNode, hother2 x hx, hother1 x hx]

/-! ## The search on any memory -/

theorem lseg_unique_to {k : Node → Ptr} {m : Mem} {xs ys : List Nat} {c : Ptr} {a : Nat}
    (hx : lseg k m c xs (some a)) (hy : lseg k m c ys (some a))
    (hax : a ∉ xs) (hay : a ∉ ys) : xs = ys := by
  induction xs generalizing c ys with
  | nil =>
    cases ys with
    | nil => rfl
    | cons b bs =>
      obtain ⟨hc, _⟩ := hy
      have hx2 : c = some a := hx
      rw [hx2] at hc
      cases hc
      exact absurd (List.mem_cons_self a bs) hay
  | cons x xs ih =>
    obtain ⟨hc, nd, hnd, hrest⟩ := hx
    cases ys with
    | nil =>
      have hy2 : c = some a := hy
      rw [hy2] at hc
      cases hc
      exact absurd (List.mem_cons_self a xs) hax
    | cons b bs =>
      obtain ⟨hc2, nd2, hnd2, hrest2⟩ := hy
      rw [hc] at hc2
      cases hc2
      rw [hnd] at hnd2
      cases hnd2
      rw [ih hrest hrest2 (fun h => hax (List.mem_cons_of_mem x h))
        (fun h => hay (List.mem_cons_of_mem x h))]

theorem lseg_nodup_to {k : Node → Ptr} {m : Mem} {xs : List Nat} {c : Ptr} {a : Nat}
    (h : lseg k m c xs (some a)) (ha : a ∉ xs) : xs.Nodup := by
  induction xs generalizing c with
  | nil => exact List.nodup_nil
  | cons x xs ih =>
    obtain ⟨_, nd, hnd, hrest⟩ := h
    have ha2 : a ∉ xs := fun h => ha (List.mem_cons_of_mem x h)
    refine List.nodup_cons.mpr ⟨?_, ih hrest ha2⟩
    intro hx
    obtain ⟨us, vs, e⟩ := List.append_of_mem hx
    rw [e] at hrest ha2
    obtain ⟨mid, _, h2⟩ := (lseg_append k m us (x :: vs) _ (some a)).mp hrest
    obtain ⟨_, nd2, hnd2, h3⟩ := h2
    rw [hnd] at hnd2
    cases hnd2
    have hav : a ∉ vs := fun h =>
      ha2 (List.mem_append_right _ (List.mem_cons_of_mem x h))
    have e2 := lseg_unique_to hrest h3 ha2 hav
    have e3 := congrArg List.length e2
    simp at e3
    omega

theorem lseg_length_le_to {k : Node → Ptr} {m : Mem} {xs : List Nat} {c : Ptr} {a : Nat}
    (h : lseg k m c xs (some a)) (ha : a ∉ xs) : xs.length ≤ m.nodes.length := by
  have hsub : xs ⊆ List.range m.nodes.length := by
    intro b hb
    obtain ⟨nd, hnd⟩ := lseg_live h hb
    exact List.mem_range.mpr (lookup_lt hnd)
  have := (List.subperm_of_subset (lseg_nodup_to h ha) hsub).length_le
  simpa using this

theorem find_loop_path {m : Mem} {v : Option String} {xs : List Nat} {c : Ptr} {a : Nat}
    {nd : Node} {fuel : Nat} (h : lseg Node.next m c xs (some a))
    (hnd : m.node a = some nd) (hyes : value_matches nd.s v = true)
    (hno : ∀ b ∈ xs, value_matches (text m b) v = false) (hf : xs.length < fuel) :
    find_loop m v fuel c = some (some a) := by
  induction xs generalizing c fuel with
  | nil =>
    have hc : c = some a := h
    subst hc
    cases fuel with
    | zero => simp at hf
    | succ f => simp [find_loop, hnd, hyes]
  | cons b bs ih =>
    obtain ⟨hc, nb, hnb, hrest⟩ := h
    subst hc
    cases fuel with
    | zero => simp at hf
    | succ f =>
      simp only [List.length_cons, Nat.add_lt_add_iff_right] at hf
      have hb : value_matches nb.s v = false := by
        have := hno b (List.mem_cons_self b bs)
        simpa [text, hnb] using this
      simp only [find_loop, hnb, hb]
      exact ih hrest (fun x hx => hno x (List.mem_cons_of_mem b hx)) hf

theorem find_first_absent_on_path {m : Mem} {lp : Nat} {l : DList} {xs : List Nat}
    {a : Nat} {nd : Node} (hl : m.list lp = some l)
    (h : lseg Node.next m l.head xs (some a)) (hnd : m.node a = some nd)
    (hs : nd.s = none) (hno : ∀ b ∈ xs, text m b ≠ none) :
    dlist_find_first m (some lp) none = some (m, some a) := by
  have ha : a ∉ xs := by
    intro hmem
    apply hno a hmem
    simp [text, hnd, hs]
  have hlen := lseg_length_le_to h ha
  have hyes : value_matches nd.s none = true := by
    rw [hs]
    rfl
  have hno2 : ∀ b ∈ xs, value_matches (text m b) none = false := by
    intro b hb
    have := hno b hb
    cases ht : text m b with
    | none => exact absurd ht this
    | some t => rfl
  simp only [dlist_find_first, hl,
    find_loop_path h hnd hyes hno2 (Nat.lt_succ_of_le hlen)]

/-! ## Claims -/

/-- C1: on a well-formed list whose forward traversal holds the values `vs`,
`dlist_insert_tail` returns a node `n` and leaves a well-formed list whose
forward traversal holds `vs` followed by `v`, whose size is the old size plus
one and whose tail is `n`; node `n` stores `v`, has no next link and has the
old tail as its prev link, and it is also the head when the list was empty. -/
theorem insert_tail_appends (malloc : Allocator) (hm : malloc.Fresh) (m : Mem) (lp : Nat)
    (l : DList) (vs : List (Option String)) (v : Option String)
    (hw : WellFormed m lp) (hl : m.list lp = some l)
    (hv : forward_values m lp = some vs) :
    ∃ m2 n l2 nd, dlist_insert_tail malloc m (some lp) v = some (m2, some n) ∧
      WellFormed m2 lp ∧ forward_values m2 lp = some (vs ++ [v]) ∧
      m2.list lp = some l2 ∧ l.size = vs.length ∧ l2.size = vs.length + 1 ∧
      l2.tail = some n ∧ m2.node n = some nd ∧ nd.s = v ∧ nd.next = none ∧
      nd.prev = l.tail ∧ (vs = [] → l.tail = none ∧ l2.head = some n) := by
  obtain ⟨ps, hc⟩ := (wellFormed_iff_chain m lp).mp hw
  have hvs : vs = ps.map (text m) := by
    have e := hc.forward_values
    rw [hv] at e
    exact Option.some.inj e
  have hsz : l.size = ps.length := by
    obtain ⟨l0, hl0, _, _, hs⟩ := hc
    rw [hl] at hl0
    cases hl0
    exact hs
  have htl : ps = [] → l.tail = none := by
    intro e
    obtain ⟨l0, hl0, _, hb, _⟩ := hc
    rw [hl] at hl0
    cases hl0
    subst e
    exact hb
  obtain ⟨m2, hrun, hc2, hl2, hn2, hnot, htxt⟩ := insert_tail_spec hm hl hc v
  refine ⟨m2, malloc m.nodes, _, _, hrun, hc2.wellFormed, ?_, hl2, ?_, ?_, rfl, hn2, rfl, rfl,
    rfl, ?_⟩
  · rw [hc2.forward_values, hvs]
    have e1 : text m2 (malloc m.nodes) = v := by simp [text, hn2]
    have e2 : ps.map (text m2) = ps.map (text m) := List.map_congr_left htxt
    simp [e1, e2]
  · simp [hvs, hsz]
  · simp [hvs, hsz]
  · intro e
    have e3 : ps = [] := by simpa [hvs] using e
    exact ⟨htl e3, by simp [e3]⟩

/-- Witness of C1: appending "cherry" to the list apple, banana. -/
theorem insert_tail_appends_witness :
    WellFormed ⟨[some ⟨some "apple", none, some 1⟩, some ⟨some "banana", some 0, none⟩],
      [⟨some 0, some 1, 2⟩]⟩ 0 ∧
    ∃ m2 n l2 nd, dlist_insert_tail first_fit
        ⟨[some ⟨some "apple", none, some 1⟩, some ⟨some "banana", some 0, none⟩],
          [⟨some 0, some 1, 2⟩]⟩ (some 0) (some "cherry") = some (m2, some n) ∧
      WellFormed m2 0 ∧
      forward_values m2 0 = some ([some "apple", some "banana"] ++ [some "cherry"]) ∧
      m2.list 0 = some l2 ∧ (2 : Nat) = [some "apple", some "banana"].length ∧
      l2.size = [some "apple", some "banana"].length + 1 ∧
      l2.tail = some n ∧ m2.node n = some nd ∧ nd.s = some "cherry" ∧ nd.next = none ∧
      nd.prev = some 1 ∧
      ([some "apple", some "banana"] = [] → (some 1 : Ptr) = none ∧ l2.head = some n) :=
  ⟨(by decide),
   insert_tail_appends first_fit first_fit_fresh _ 0 ⟨some 0, some 1, 2⟩
    [some "apple", some "banana"] (some "cherry") (by decide) rfl rfl⟩

/-- C2: on a well-formed list with nodes `ps` and values `vs`,
`dlist_find_first` returns `NULL` exactly when no value equals `v` under the
rule of the specification, and otherwise the node at the smallest position
whose value equals `v`; on apple, banana, cherry, banana the search for
"banana" returns the node at position 1 and the search for "durian" `NULL`. -/
theorem find_first_smallest_position (m : Mem) (lp : Nat) (ps : List Nat)
    (vs : List (Option String)) (v : Option String) (hw : WellFormed m lp)
    (hp : forward_nodes m lp = some ps) (hv : forward_values m lp = some vs) :
    (∃ r, dlist_find_first m (some lp) v = some (m, r) ∧
      (r = none ↔ ∀ s ∈ vs, spec_equal s v = false) ∧
      (∀ a, r = some a → ∃ (i : Nat) (s : Option String), ps[i]? = some a ∧ vs[i]? = some s ∧
        spec_equal s v = true ∧
        ∀ (j : Nat) (t : Option String), j < i → vs[j]? = some t →
          spec_equal t v = false)) ∧
    forward_nodes fruit 0 = some [0, 1, 2, 3] ∧
    dlist_find_first fruit (some 0) (some "banana") = some (fruit, some 1) ∧
    dlist_find_first fruit (some 0) (some "durian") = some (fruit, none) := by
  refine ⟨?_, by decide, by decide, by decide⟩
  obtain ⟨hvs, hrun⟩ := find_first_result hw hp hv v
  have hlen : vs.length = ps.length := by simp [hvs]
  obtain ⟨hbefore, hat⟩ := findIdx_first (fun s => spec_equal s v) vs
  refine ⟨_, hrun, ?_, ?_⟩
  · rw [List.getElem?_eq_none_iff, ← hlen, ← List.findIdx_eq_length]
    have := @List.findIdx_le_length _ (fun s => spec_equal s v) vs
    omega
  · intro a ha
    have hlt : vs.findIdx (fun s => spec_equal s v) < vs.length := by
      rw [hlen]
      by_contra hc
      rw [List.getElem?_eq_none (by omega)] at ha
      cases ha
    obtain ⟨s, hs, hps⟩ := hat hlt
    exact ⟨_, s, ha, hs, hps, hbefore⟩

/-- Witness of C2: the search for "cherry" in apple, banana, cherry, banana. -/
theorem find_first_smallest_position_witness :
    WellFormed fruit 0 ∧
    ((∃ r, dlist_find_first fruit (some 0) (some "cherry") = some (fruit, r) ∧
      (r = none ↔ ∀ s ∈ [some "apple", some "banana", some "cherry", some "banana"],
        spec_equal s (some "cherry") = false) ∧
      (∀ a, r = some a → ∃ (i : Nat) (s : Option String), [0, 1, 2, 3][i]? = some a ∧
        [some "apple", some "banana", some "cherry", some "banana"][i]? = some s ∧
        spec_equal s (some "cherry") = true ∧
        ∀ (j : Nat) (t : Option String), j < i →
          [some "apple", some "banana", some "cherry", some "banana"][j]? = some t →
          spec_equal t (some "cherry") = false)) ∧
    forward_nodes fruit 0 = some [0, 1, 2, 3] ∧
    dlist_find_first fruit (some 0) (some "banana") = some (fruit, some 1) ∧
    dlist_find_first fruit (some 0) (some "durian") = some (fruit, none)) :=
  ⟨(by decide),
   find_first_smallest_position fruit 0 [0, 1, 2, 3]
    [some "apple", some "banana", some "cherry", some "banana"] (some "cherry")
    (by decide) rfl rfl⟩

/-- C3: on a well-formed list of size `n` with nodes `ps` and values `vs`,
`dlist_delete_node` on the node at position `i` returns 1 and leaves a
well-formed list whose forward traversal is the old one with exactly position
`i` removed, the rest in its order, and whose size is `n - 1`. -/
theorem delete_node_removes_position (m : Mem) (lp : Nat) (l : DList) (ps : List Nat)
    (vs : List (Option String)) (i a : Nat) (hw : WellFormed m lp)
    (hl : m.list lp = some l) (hp : forward_nodes m lp = some ps)
    (hv : forward_values m lp = some vs) (hi : ps[i]? = some a) :
    ∃ m2 l2, dlist_delete_node m (some lp) (some a) = some (m2, 1) ∧
      WellFormed m2 lp ∧ forward_nodes m2 lp = some (ps.eraseIdx i) ∧
      forward_values m2 lp = some (vs.eraseIdx i) ∧
      m2.list lp = some l2 ∧ l.size = vs.length ∧ 0 < vs.length ∧
      l2.size = vs.length - 1 := by
  obtain ⟨m2, l2, hrun, hc2, hv2, hl2, hsz, hsz0, _, _⟩ :=
    delete_member_spec m lp l ps vs i a hw hl hp hv hi
  have hpos : 0 < vs.length := by omega
  exact ⟨m2, l2, hrun, hc2.wellFormed, hc2.forward_nodes, hv2, hl2, hsz0, hpos, by omega⟩

/-- Witness of C3: deleting the first banana node, at position 1, of apple,
banana, cherry, banana. -/
theorem delete_node_removes_position_witness :
    WellFormed fruit 0 ∧ [0, 1, 2, 3][1]? = some 1 ∧
    ∃ m2 l2, dlist_delete_node fruit (some 0) (some 1) = some (m2, 1) ∧
      WellFormed m2 0 ∧ forward_nodes m2 0 = some ([0, 1, 2, 3].eraseIdx 1) ∧
      forward_values m2 0 = some
        ([some "apple", some "banana", some "cherry", some "banana"].eraseIdx 1) ∧
      m2.list 0 = some l2 ∧
      (4 : Nat) = [some "apple", some "banana", some "cherry", some "banana"].length ∧
      0 < [some "apple", some "banana", some "cherry", some "banana"].length ∧
      l2.size = [some "apple", some "banana", some "cherry", some "banana"].length - 1 :=
  ⟨(by decide), rfl,
   delete_node_removes_position fruit 0 ⟨some 0, some 3, 4⟩ [0, 1, 2, 3]
    [some "apple", some "banana", some "cherry", some "banana"] 1 1
    (by decide) rfl rfl rfl rfl⟩

/-- C4: on a well-formed list with values `vs`, `dlist_delete_first_match` is
`dlist_delete_node` applied to the result of `dlist_find_first`; it returns 1
exactly when some value equals `v`, and then the values are `vs` with only the
first one equal to `v` erased and the size is one less, so that `v` is still
found when it occurred at least twice; otherwise it returns 0.  Deleting
"banana" from apple, banana, cherry, banana leaves apple, cherry, banana with
size 3, and "banana" is still found. -/
theorem delete_first_match_erases_first (m : Mem) (lp : Nat) (vs : List (Option String))
    (v : Option String) (hw : WellFormed m lp) (hv : forward_values m lp = some vs) :
    ((∃ r, dlist_find_first m (some lp) v = some (m, r) ∧
      dlist_delete_first_match m (some lp) v = dlist_delete_node m (some lp) r) ∧
    ∃ m2 ret, dlist_delete_first_match m (some lp) v = some (m2, ret) ∧
      (ret = 1 ↔ ∃ s ∈ vs, spec_equal s v = true) ∧
      (ret = 1 → WellFormed m2 lp ∧
        forward_values m2 lp = some (vs.eraseP (fun s => spec_equal s v)) ∧
        (m2.list lp).map DList.size = some (vs.length - 1)) ∧
      (ret = 1 → 2 ≤ (vs.filter (fun s => spec_equal s v)).length →
        ∃ a, dlist_find_first m2 (some lp) v = some (m2, some a)) ∧
      (ret ≠ 1 → ret = 0)) ∧
    ∃ m3, dlist_delete_first_match fruit (some 0) (some "banana") = some (m3, 1) ∧
      forward_values m3 0 = some [some "apple", some "cherry", some "banana"] ∧
      (m3.list 0).map DList.size = some 3 ∧
      dlist_find_first m3 (some 0) (some "banana") = some (m3, some 3) := by
  refine ⟨?_, _, rfl, rfl, rfl, rfl⟩
  obtain ⟨hcomp, m2, ret, hrun, hret, hone, hzero⟩ := delete_first_match_spec hw hv v
  refine ⟨hcomp, m2, ret, hrun, hret, hone, ?_, fun hc => (hzero hc).1⟩
  intro h1 htwice
  obtain ⟨hw2, hv2, _⟩ := hone h1
  exact find_first_some hw2 hv2 v (exists_after_eraseP _ vs htwice)

/-- Witness of C4: deleting the first "banana" of apple, banana, cherry,
banana. -/
theorem delete_first_match_erases_first_witness :
    WellFormed fruit 0 ∧
    (((∃ r, dlist_find_first fruit (some 0) (some "banana") = some (fruit, r) ∧
      dlist_delete_first_match fruit (some 0) (some "banana") =
        dlist_delete_node fruit (some 0) r) ∧
    ∃ m2 ret, dlist_delete_first_match fruit (some 0) (some "banana") = some (m2, ret) ∧
      (ret = 1 ↔ ∃ s ∈ [some "apple", some "banana", some "cherry", some "banana"],
        spec_equal s (some "banana") = true) ∧
      (ret = 1 → WellFormed m2 0 ∧
        forward_values m2 0 = some
          ([some "apple", some "banana", some "cherry", some "banana"].eraseP
            (fun s => spec_equal s (some "banana"))) ∧
        (m2.list 0).map DList.size = some
          ([some "apple", some "banana", some "cherry", some "banana"].length - 1)) ∧
      (ret = 1 → 2 ≤ ([some "apple", some "banana", some "cherry", some "banana"].filter
          (fun s => spec_equal s (some "banana"))).length →
        ∃ a, dlist_find_first m2 (some 0) (some "banana") = some (m2, some a)) ∧
      (ret ≠ 1 → ret = 0)) ∧
    ∃ m3, dlist_delete_first_match fruit (some 0) (some "banana") = some (m3, 1) ∧
      forward_values m3 0 = some [some "apple", some "cherry", some "banana"] ∧
      (m3.list 0).map DList.size = some 3 ∧
      dlist_find_first m3 (some 0) (some "banana") = some (m3, some 3)) :=
  ⟨(by decide),
   delete_first_match_erases_first fruit 0
    [some "apple", some "banana", some "cherry", some "banana"] (some "banana")
    (by decide) rfl⟩

/-- C5, as the code has it: `dlist_delete_node` does not look whether the
node belongs to the list.  It returns 0 and changes nothing when the list or
the node pointer is `NULL`.  For every live node `a` whose links are `NULL` or
point to live nodes (a member of any list, this one or another) it returns 1
and has unlinked `a` through the given header, freed it and decremented the
size: the cell of `a` is free; the node before `a`, if any, has the next link
of `a` as its next link, else the head of the header is the next link of `a`;
the node after `a`, if any, has the prev link of `a` as its prev link, else
the tail of the header is the prev link of `a`; the size of the header is one
less (as a `size_t`); no other node, link, value or header has changed. -/
theorem delete_node_unchecked (m : Mem) (lp a : Nat) (l : DList) (nd : Node)
    (hl : m.list lp = some l) (hnd : m.node a = some nd)
    (hp : ∀ p, nd.prev = some p → ∃ pn, m.node p = some pn)
    (hq : ∀ q, nd.next = some q → ∃ qn, m.node q = some qn) :
    (∃ m2, dlist_delete_node m (some lp) (some a) = some (m2, 1) ∧
      m2.node a = none ∧
      (∀ b, b ≠ a → m2.node b = (m.node b).map (fun nb =>
        { s := nb.s,
          prev := if nd.next = some b then nd.prev else nb.prev,
          next := if nd.prev = some b then nd.next else nb.next })) ∧
      m2.list lp = some
        { head := if nd.prev = none then nd.next else l.head,
          tail := if nd.next = none then nd.prev else l.tail,
          size := size_dec l.size } ∧
      (∀ x, x ≠ lp → m2.list x = m.list x)) ∧
    dlist_delete_node m none (some a) = some (m, 0) ∧
    dlist_delete_node m (some lp) none = some (m, 0) :=
  ⟨delete_node_exact hl hnd hp hq, rfl, rfl⟩

/-- Witness of C5 as amended: node 1, of the list at header 1, deleted
through header 0. -/
theorem delete_node_unchecked_witness :
    (∃ m2, dlist_delete_node two_lists (some 0) (some 1) = some (m2, 1) ∧
      m2.node 1 = none ∧
      (∀ b, b ≠ 1 → m2.node b = (two_lists.node b).map (fun nb =>
        { s := nb.s,
          prev := if (none : Ptr) = some b then none else nb.prev,
          next := if (none : Ptr) = some b then none else nb.next })) ∧
      m2.list 0 = some
        { head := if (none : Ptr) = none then none else some 0,
          tail := if (none : Ptr) = none then none else some 0,
          size := size_dec 1 } ∧
      (∀ x, x ≠ 0 → m2.list x = two_lists.list x)) ∧
    dlist_delete_node two_lists none (some 1) = some (two_lists, 0) ∧
    dlist_delete_node two_lists (some 0) none = some (two_lists, 0) :=
  delete_node_unchecked two_lists 0 1 ⟨some 0, some 0, 1⟩ ⟨some "B", none, none⟩ rfl rfl
    (fun _ h => by cases h) (fun _ h => by cases h)

/-- Counterexample to C5: node 1 is not a member of the list at header 0
(whose only node is 0), it is the node of the list at header 1; deleting it
through header 0 returns 1, not 0, empties header 0 and frees node 1. -/
theorem delete_foreign_node_returns_one :
    WellFormed two_lists 0 ∧ WellFormed two_lists 1 ∧
    forward_nodes two_lists 0 = some [0] ∧ forward_nodes two_lists 1 = some [1] ∧
    dlist_delete_node two_lists (some 0) (some 1) =
      some (⟨[some ⟨some "A", none, none⟩, none],
        [⟨none, none, 0⟩, ⟨some 1, some 1, 1⟩]⟩, 1) ∧
    ¬ ∃ m2, dlist_delete_node two_lists (some 0) (some 1) = some (m2, 0) := by
  refine ⟨(by decide), (by decide), rfl, rfl, by decide, ?_⟩
  rintro ⟨m2, h⟩
  have e : dlist_delete_node two_lists (some 0) (some 1) =
      some (⟨[some ⟨some "A", none, none⟩, none],
        [⟨none, none, 0⟩, ⟨some 1, some 1, 1⟩]⟩, 1) := by decide
  rw [e] at h
  cases h

/-- C6: the invariants of section 3 of the specification hold after
`dlist_init` and are kept by `dlist_insert_tail`, by `dlist_delete_node` on a
member node, by `dlist_delete_first_match` and by `dlist_clear`, each of which
returns. -/
theorem invariants_preserved (malloc : Allocator) (hm : malloc.Fresh) (m : Mem) (lp : Nat) :
    ((m.list lp).isSome →
      ∃ m2, dlist_init m (some lp) = some m2 ∧ spec_invariants m2 lp) ∧
    (spec_invariants m lp → ∀ v, ∃ m2 n,
      dlist_insert_tail malloc m (some lp) v = some (m2, some n) ∧ spec_invariants m2 lp) ∧
    (spec_invariants m lp → ∀ ps a, forward_nodes m lp = some ps → a ∈ ps →
      ∃ m2, dlist_delete_node m (some lp) (some a) = some (m2, 1) ∧
        spec_invariants m2 lp) ∧
    (spec_invariants m lp → ∀ v, ∃ m2 ret,
      dlist_delete_first_match m (some lp) v = some (m2, ret) ∧ spec_invariants m2 lp) ∧
    (spec_invariants m lp →
      ∃ m2, dlist_clear m (some lp) = some m2 ∧ spec_invariants m2 lp) := by
  refine ⟨?_, ?_, ?_, ?_, ?_⟩
  · intro h
    obtain ⟨l, hl⟩ := Option.isSome_iff_exists.mp h
    obtain ⟨hrun, hc⟩ := init_spec hl
    exact ⟨_, hrun, chain_spec_invariants hc⟩
  · intro h v
    obtain ⟨ps, hc⟩ := spec_invariants_chain h
    obtain ⟨l, hl, _⟩ := hc
    obtain ⟨m2, hrun, hc2, _⟩ := insert_tail_spec hm hl ⟨l, hl, ‹_›⟩ v
    exact ⟨m2, _, hrun, chain_spec_invariants hc2⟩
  · intro h ps a hp ha
    obtain ⟨qs, hc⟩ := spec_invariants_chain h
    rw [hc.forward_nodes] at hp
    cases hp
    obtain ⟨front, back, e⟩ := List.append_of_mem ha
    subst e
    obtain ⟨l, hl, _⟩ := hc
    obtain ⟨m2, _, hrun, hc2, _⟩ := delete_node_spec hl ⟨l, hl, ‹_›⟩
    exact ⟨m2, hrun, chain_spec_invariants hc2⟩
  · intro h v
    obtain ⟨ps, hc⟩ := spec_invariants_chain h
    obtain ⟨m2, ret, ps2, hrun, hc2, _⟩ := delete_first_match_chain hc v
    exact ⟨m2, ret, hrun, chain_spec_invariants hc2⟩
  · intro h
    obtain ⟨ps, hc⟩ := spec_invariants_chain h
    obtain ⟨hrun, hc2⟩ := clear_spec hc
    exact ⟨_, hrun, chain_spec_invariants hc2⟩

/-- Witness of C6: the five operations on apple, banana, cherry, banana with
the first-fit allocator. -/
theorem invariants_preserved_witness :
    spec_invariants fruit 0 ∧
    (∃ m2, dlist_init fruit (some 0) = some m2 ∧ spec_invariants m2 0) ∧
    (∃ m2 n, dlist_insert_tail first_fit fruit (some 0) (some "durian") = some (m2, some n) ∧
      spec_invariants m2 0) ∧
    (∃ m2, dlist_delete_node fruit (some 0) (some 2) = some (m2, 1) ∧
      spec_invariants m2 0) ∧
    (∃ m2 ret, dlist_delete_first_match fruit (some 0) (some "banana") = some (m2, ret) ∧
      spec_invariants m2 0) ∧
    (∃ m2, dlist_clear fruit (some 0) = some m2 ∧ spec_invariants m2 0) :=
  have hw : spec_invariants fruit 0 :=
    (wellFormed_iff_spec fruit 0).mp (by decide)
  have h := invariants_preserved first_fit first_fit_fresh fruit 0
  ⟨hw, h.1 rfl, h.2.1 hw (some "durian"), h.2.2.1 hw [0, 1, 2, 3] 2 rfl (by decide),
    h.2.2.2.1 hw (some "banana"), h.2.2.2.2 hw⟩

/-- C7: starting from `dlist_init`, after any run of calls with `k` appends
and `j` removals that returned 1 (by handle on `NULL` or member nodes, or by
value), the run returns, `j ≤ k`, the size field is `k - j` and it is the
number of nodes reached from the head. -/
theorem size_is_appends_minus_removals (malloc : Allocator) (hm : malloc.Fresh) (m0 : Mem)
    (lp : Nat) (ops : List Op) (hl : (m0.list lp).isSome)
    (hok : ∀ m1, dlist_init m0 (some lp) = some m1 → member_handles malloc lp m1 ops) :
    ∃ m1 m k j l ps, dlist_init m0 (some lp) = some m1 ∧
      run malloc lp m1 ops = some (m, k, j) ∧ k = ops.countP Op.is_insert ∧ j ≤ k ∧
      m.list lp = some l ∧ l.size = k - j ∧ l.size + j = k ∧
      forward_nodes m lp = some ps ∧ ps.length = l.size := by
  obtain ⟨l0, hl0⟩ := Option.isSome_iff_exists.mp hl
  obtain ⟨hinit, hc⟩ := init_spec hl0
  obtain ⟨m, k, j, ps, hrun, hc2, hcount, hk⟩ := run_spec hm lp ops _ [] hc (hok _ hinit)
  simp only [List.length_nil, Nat.zero_add] at hcount
  obtain ⟨l, hl2, hf, hb, hs⟩ := hc2
  exact ⟨_, m, k, j, l, ps, hinit, hrun, hk, by omega, hl2, by omega, by omega,
    Chain.forward_nodes ⟨l, hl2, hf, hb, hs⟩, hs.symm⟩

/-- Witness of C7: the calls of `test_delete_by_node_pointer`, then a removal
by value: three appends, the removal of node 1 by handle and of "C" by value. -/
theorem size_is_appends_minus_removals_witness :
    ∃ m1 m k j l ps, dlist_init blank (some 0) = some m1 ∧
      run first_fit 0 m1 [Op.insert_tail (some "A"), Op.insert_tail (some "B"),
        Op.insert_tail (some "C"), Op.delete_node (some 1),
        Op.delete_first_match (some "C")] = some (m, k, j) ∧
      k = [Op.insert_tail (some "A"), Op.insert_tail (some "B"),
        Op.insert_tail (some "C"), Op.delete_node (some 1),
        Op.delete_first_match (some "C")].countP Op.is_insert ∧ j ≤ k ∧
      m.list 0 = some l ∧ l.size = k - j ∧ l.size + j = k ∧
      forward_nodes m 0 = some ps ∧ ps.length = l.size :=
  size_is_appends_minus_removals first_fit first_fit_fresh blank 0
    [Op.insert_tail (some "A"), Op.insert_tail (some "B"), Op.insert_tail (some "C"),
      Op.delete_node (some 1), Op.delete_first_match (some "C")] rfl
    (by
      intro m1 h1
      have e : m1 = ⟨[], [⟨none, none, 0⟩]⟩ := by
        have h2 : dlist_init blank (some 0) = some ⟨[], [⟨none, none, 0⟩]⟩ := rfl
        rw [h2] at h1
        exact (Option.some.inj h1).symm
      subst e
      exact ⟨trivial, trivial, trivial, ⟨[0, 1, 2], rfl, by decide⟩, trivial, trivial⟩)

/-- C8: the search keeps "no string" and the empty string apart, on every
memory and every list, well-formed or not.  A node returned by the search for
`NULL` holds `NULL` and a node returned by the search for a text holds that
text, so never `NULL`.  When the path from the head along `next` reaches a
node that holds `NULL` through nodes that all hold a text, the search for
`NULL` returns that node; on a well-formed list that holds `NULL` somewhere
this is the node at the smallest position that holds `NULL`.  On the list "",
`NULL`, "x", `NULL` the search for `NULL` returns node 1 and the search for ""
node 0; on a ring of two nodes, which is not well-formed, the search for
`NULL` returns node 1. -/
theorem absent_is_not_empty (m : Mem) :
    (∀ list v m2 a, dlist_find_first m list v = some (m2, some a) →
      ∃ nd, m.node a = some nd ∧ (v = none → nd.s = none) ∧
        (∀ t, v = some t → nd.s = some t)) ∧
    (∀ lp l xs a nd, m.list lp = some l → lseg Node.next m l.head xs (some a) →
      m.node a = some nd → nd.s = none → (∀ b ∈ xs, text m b ≠ none) →
      dlist_find_first m (some lp) none = some (m, some a)) ∧
    (∀ lp ps vs, WellFormed m lp → forward_nodes m lp = some ps →
      forward_values m lp = some vs → none ∈ vs →
      ∃ (i a : Nat), dlist_find_first m (some lp) none = some (m, some a) ∧
        ps[i]? = some a ∧ vs[i]? = some none ∧
        ∀ (j : Nat) (t : Option String), j < i → vs[j]? = some t → t ≠ none) ∧
    value_matches none (some "") = false ∧ value_matches (some "") none = false ∧
    spec_equal none (some "") = false ∧ spec_equal (some "") none = false ∧
    dlist_find_first mixed (some 0) none = some (mixed, some 1) ∧
    dlist_find_first mixed (some 0) (some "") = some (mixed, some 0) ∧
    ¬ WellFormed loopy 0 ∧
    dlist_find_first loopy (some 0) none = some (loopy, some 1) ∧
    dlist_find_first loopy (some 0) (some "x") = some (loopy, some 0) := by
  refine ⟨?_, ?_, ?_, by decide, by decide, by decide, by decide, by decide, by decide,
    by decide, by decide, by decide⟩
  · intro list v m2 a h
    obtain ⟨_, _, l, _, _, hloop⟩ := find_first_same_memory h
    obtain ⟨nd, hnd, hmatch⟩ := find_loop_sound hloop
    rw [value_matches_eq, spec_equal_iff] at hmatch
    exact ⟨nd, hnd, fun e => by rw [hmatch, e], fun t e => by rw [hmatch, e]⟩
  · intro lp l xs a nd hl h hnd hs hno
    exact find_first_absent_on_path hl h hnd hs hno
  · intro lp ps vs hw hp hv hmem
    obtain ⟨hvs, hrun⟩ := find_first_result hw hp hv none
    obtain ⟨hbefore, hat⟩ := findIdx_first (fun s => spec_equal s none) vs
    have hlt : vs.findIdx (fun s => spec_equal s none) < vs.length :=
      List.findIdx_lt_length.mpr ⟨none, hmem, rfl⟩
    obtain ⟨s, hs, hps⟩ := hat hlt
    have hs0 : s = none := (spec_equal_iff s none).mp hps
    subst hs0
    have hlt2 : vs.findIdx (fun s => spec_equal s none) < ps.length := by
      have hlen : vs.length = ps.length := by simp [hvs]
      omega
    rw [List.getElem?_eq_getElem hlt2] at hrun
    refine ⟨_, _, hrun, List.getElem?_eq_getElem hlt2, hs, ?_⟩
    intro j t hj ht e
    have := hbefore j t hj ht
    rw [e] at this
    cases this

/-- Witness of C8: the ring of two nodes, where node 1 is reached from the
head through node 0, and the well-formed list "", `NULL`, "x", `NULL`. -/
theorem absent_is_not_empty_witness :
    ¬ WellFormed loopy 0 ∧
    dlist_find_first loopy (some 0) none = some (loopy, some 1) ∧
    WellFormed mixed 0 ∧ none ∈ [some "", none, some "x", none] ∧
    ∃ (i a : Nat), dlist_find_first mixed (some 0) none = some (mixed, some a) ∧
      [0, 1, 2, 3][i]? = some a ∧ [some "", none, some "x", none][i]? = some none ∧
      ∀ (j : Nat) (t : Option String), j < i →
        [some "", none, some "x", none][j]? = some t → t ≠ none :=
  ⟨(by decide),
   (absent_is_not_empty loopy).2.1 0 ⟨some 0, some 1, 2⟩ [0] 1 ⟨none, some 0, some 0⟩ rfl
     ⟨rfl, ⟨some "x", some 1, some 1⟩, rfl, rfl⟩ rfl rfl (by decide),
   (by decide), (by decide),
   (absent_is_not_empty mixed).2.2.1 0 [0, 1, 2, 3] [some "", none, some "x", none]
     (by decide) rfl rfl (by decide)⟩

/-- C9: `dlist_find_first` does not change the memory: when it returns, the
memory it leaves is the one it was given, so every header (head, tail, size)
and every node (value, prev, next) is as before; and on a well-formed list it
does return. -/
theorem find_first_does_not_mutate (m : Mem) (lp : Nat) (v : Option String) :
    (∀ list m2 r, dlist_find_first m list v = some (m2, r) →
      m2 = m ∧ (∀ x, m2.list x = m.list x) ∧ (∀ a, m2.node a = m.node a)) ∧
    (WellFormed m lp → ∃ r, dlist_find_first m (some lp) v = some (m, r)) := by
  constructor
  · intro list m2 r h
    obtain ⟨e, _⟩ := find_first_same_memory h
    subst e
    exact ⟨rfl, fun _ => rfl, fun _ => rfl⟩
  · intro hw
    obtain ⟨ps, hc⟩ := (wellFormed_iff_chain m lp).mp hw
    exact ⟨_, find_first_chain hc v⟩

/-- Witness of C9: the search for "cherry" in apple, banana, cherry, banana. -/
theorem find_first_does_not_mutate_witness :
    WellFormed fruit 0 ∧
    (∀ list m2 r, dlist_find_first fruit list (some "cherry") = some (m2, r) →
      m2 = fruit ∧ (∀ x, m2.list x = fruit.list x) ∧ (∀ a, m2.node a = fruit.node a)) ∧
    ∃ r, dlist_find_first fruit (some 0) (some "cherry") = some (fruit, r) :=
  ⟨(by decide),
   (find_first_does_not_mutate fruit 0 (some "cherry")).1,
   (find_first_does_not_mutate fruit 0 (some "cherry")).2 (by decide)⟩

/-- C10: on a well-formed list `dlist_clear` returns and leaves the header
that `dlist_init` writes (head and tail `NULL`, size 0), with every node of
the list freed; `dlist_init` and `dlist_clear` on the cleared list change
nothing, and clearing a list that is already empty changes nothing. -/
theorem clear_gives_init_state (m : Mem) (lp : Nat) (ps : List Nat) (hw : WellFormed m lp)
    (hp : forward_nodes m lp = some ps) :
    ∃ m2 m3, dlist_clear m (some lp) = some m2 ∧ dlist_init m (some lp) = some m3 ∧
      m2.list lp = some ⟨none, none, 0⟩ ∧ m3.list lp = some ⟨none, none, 0⟩ ∧
      (∀ a ∈ ps, m2.node a = none) ∧
      dlist_init m2 (some lp) = some m2 ∧ dlist_clear m2 (some lp) = some m2 ∧
      (ps = [] → m2 = m) := by
  have hc := chain_of_forward hw hp
  obtain ⟨hrun, hc2⟩ := clear_spec hc
  obtain ⟨l, hl, hf, hb, hs⟩ := hc
  obtain ⟨hinit, _⟩ := init_spec hl
  have hl2 : (free_all m ps).list lp = some l := by rw [free_all_list, hl]
  have hl3 : ((free_all m ps).setList lp ⟨none, none, 0⟩).list lp = some ⟨none, none, 0⟩ :=
    list_setList_same hl2 _
  obtain ⟨hrun2, _⟩ := clear_spec hc2
  obtain ⟨hinit2, _⟩ := init_spec hl3
  refine ⟨_, _, hrun, hinit, hl3, list_setList_same hl _, ?_, ?_, ?_, ?_⟩
  · intro a ha
    simp [free_all_node, ha]
  · rw [hinit2, setList_self hl3]
  · rw [hrun2]
    show some ((((free_all m ps).setList lp ⟨none, none, 0⟩)).setList lp ⟨none, none, 0⟩) = _
    rw [setList_self hl3]
  · intro e
    subst e
    have h1 : l.head = none := hf
    have h2 : l.tail = none := hb
    have h3 : l.size = 0 := hs
    have e2 : l = ⟨none, none, 0⟩ := by
      cases l
      simp only at h1 h2 h3
      subst h1
      subst h2
      subst h3
      rfl
    subst e2
    exact setList_self hl

/-- Witness of C10: clearing apple, banana, cherry, banana. -/
theorem clear_gives_init_state_witness :
    WellFormed fruit 0 ∧
    ∃ m2 m3, dlist_clear fruit (some 0) = some m2 ∧ dlist_init fruit (some 0) = some m3 ∧
      m2.list 0 = some ⟨none, none, 0⟩ ∧ m3.list 0 = some ⟨none, none, 0⟩ ∧
      (∀ a ∈ [0, 1, 2, 3], m2.node a = none) ∧
      dlist_init m2 (some 0) = some m2 ∧ dlist_clear m2 (some 0) = some m2 ∧
      ([0, 1, 2, 3] = [] → m2 = fruit) :=
  ⟨(by decide),
   clear_gives_init_state fruit 0 [0, 1, 2, 3] (by decide) rfl⟩

/-- C11: appending `v1, ..., vn` in that order to a freshly initialised list
returns and gives a well-formed list whose forward traversal from the head is
`v1, ..., vn`, which is the order in which `dlist_print` writes the values,
and whose backward traversal from the tail is `vn, ..., v1`. -/
theorem appends_keep_order (malloc : Allocator) (hm : malloc.Fresh) (m0 : Mem) (lp : Nat)
    (vs : List (Option String)) (hl : (m0.list lp).isSome) :
    ∃ m1 m2, dlist_init m0 (some lp) = some m1 ∧
      append_all malloc m1 (some lp) vs = some m2 ∧ WellFormed m2 lp ∧
      forward_values m2 lp = some vs ∧ backward_values m2 lp = some vs.reverse ∧
      dlist_print m2 (some lp) = some (render_as "DList" vs) := by
  obtain ⟨l0, hl0⟩ := Option.isSome_iff_exists.mp hl
  obtain ⟨hinit, hc⟩ := init_spec hl0
  obtain ⟨m2, qs, hrun, hc2, hqs, _⟩ := append_all_chain hm lp vs _ [] hc
  rw [List.nil_append] at hc2
  refine ⟨_, m2, hinit, hrun, hc2.wellFormed, ?_, ?_, ?_⟩
  · rw [hc2.forward_values, hqs]
  · rw [hc2.backward_values, hqs]
  · rw [print_chain hc2, hqs]

/-- Witness of C11: the four appends of `test_basic_ops` with the first-fit
allocator. -/
theorem appends_keep_order_witness :
    ∃ m1 m2, dlist_init blank (some 0) = some m1 ∧
      append_all first_fit m1 (some 0)
        [some "apple", some "banana", some "cherry", some "banana"] = some m2 ∧
      WellFormed m2 0 ∧
      forward_values m2 0 =
        some [some "apple", some "banana", some "cherry", some "banana"] ∧
      backward_values m2 0 =
        some [some "apple", some "banana", some "cherry", some "banana"].reverse ∧
      dlist_print m2 (some 0) = some (render_as "DList"
        [some "apple", some "banana", some "cherry", some "banana"]) :=
  appends_keep_order first_fit first_fit_fresh blank 0
    [some "apple", some "banana", some "cherry", some "banana"] rfl

/-- C12, as the code has it: on a list whose forward traversal holds the
values `v1, ..., vn` and whose size field is `n`, the text written by
`dlist_print` is `DList(size=n): [`, the values in order, each in double quotes
with an absent value shown as `(null)`, a comma and a space between two values
and none after the last, then `]` and a newline.  The empty list gives
`DList(size=0): []` and hello, world gives `DList(size=2): ["hello", "world"]`. -/
theorem print_writes_dlist (m : Mem) (lp : Nat) (l : DList) (vs : List (Option String))
    (hl : m.list lp = some l) (hv : forward_values m lp = some vs)
    (hs : l.size = vs.length) :
    dlist_print m (some lp) = some (render_as "DList" vs) ∧
    render_as "DList" [] = "DList(size=0): []\n" ∧
    render_as "DList" [some "hello", some "world"] =
      "DList(size=2): [\"hello\", \"world\"]\n" ∧
    render_as "DList" [some "a", none] = "DList(size=2): [\"a\", \"(null)\"]\n" ∧
    dlist_print hello_world (some 0) = some "DList(size=2): [\"hello\", \"world\"]\n" := by
  refine ⟨?_, by decide, by decide, by decide, by decide⟩
  have e : "DList" ++ "(size=" = "DList(size=" := by decide
  rw [print_of_values hl hv, hs]
  simp only [render_as, e]

/-- Witness of C12 as amended: the list "hello", "world" of `main`. -/
theorem print_writes_dlist_witness :
    forward_values hello_world 0 = some [some "hello", some "world"] ∧
    dlist_print hello_world (some 0) =
      some (render_as "DList" [some "hello", some "world"]) ∧
    render_as "DList" [] = "DList(size=0): []\n" ∧
    render_as "DList" [some "hello", some "world"] =
      "DList(size=2): [\"hello\", \"world\"]\n" ∧
    render_as "DList" [some "a", none] = "DList(size=2): [\"a\", \"(null)\"]\n" ∧
    dlist_print hello_world (some 0) = some "DList(size=2): [\"hello\", \"world\"]\n" :=
  ⟨rfl, print_writes_dlist hello_world 0 ⟨some 0, some 1, 2⟩ [some "hello", some "world"]
    rfl rfl rfl⟩

/-- Counterexample to C12: the empty list and the list hello, world are
written with the name `DList`, not `TextList`. -/
theorem print_is_not_textlist :
    WellFormed ⟨[], [⟨none, none, 0⟩]⟩ 0 ∧
    forward_values ⟨[], [⟨none, none, 0⟩]⟩ 0 = some [] ∧
    render_as "TextList" [] = "TextList(size=0): []\n" ∧
    dlist_print ⟨[], [⟨none, none, 0⟩]⟩ (some 0) = some "DList(size=0): []\n" ∧
    dlist_print ⟨[], [⟨none, none, 0⟩]⟩ (some 0) ≠ some (render_as "TextList" []) ∧
    WellFormed hello_world 0 ∧
    forward_values hello_world 0 = some [some "hello", some "world"] ∧
    render_as "TextList" [some "hello", some "world"] =
      "TextList(size=2): [\"hello\", \"world\"]\n" ∧
    dlist_print hello_world (some 0) ≠
      some (render_as "TextList" [some "hello", some "world"]) := by
  decide

/-- C13: on a well-formed list with values `vs` in which no value equals `v`,
and so on every empty list, `dlist_find_first` returns `NULL` and
`dlist_delete_first_match` returns 0 and leaves the memory as it was: every
header and every node is unchanged. -/
theorem no_match_changes_nothing (m : Mem) (lp : Nat) (vs : List (Option String))
    (v : Option String) (hw : WellFormed m lp) (hv : forward_values m lp = some vs) :
    ((∀ s ∈ vs, spec_equal s v = false) →
      dlist_find_first m (some lp) v = some (m, none) ∧
      dlist_delete_first_match m (some lp) v = some (m, 0)) ∧
    (vs = [] →
      dlist_find_first m (some lp) v = some (m, none) ∧
      dlist_delete_first_match m (some lp) v = some (m, 0)) := by
  have key : (∀ s ∈ vs, spec_equal s v = false) →
      dlist_find_first m (some lp) v = some (m, none) ∧
      dlist_delete_first_match m (some lp) v = some (m, 0) := by
    intro hno
    obtain ⟨ps, hc⟩ := (wellFormed_iff_chain m lp).mp hw
    obtain ⟨hvs, hfind⟩ := find_first_result hw hc.forward_nodes hv v
    have hidx := List.findIdx_eq_length.mpr hno
    have hlen : vs.length = ps.length := by simp [hvs]
    have hget : ps[vs.findIdx (fun s => spec_equal s v)]? = none := by
      rw [hidx, hlen]
      exact List.getElem?_eq_none (Nat.le_refl _)
    rw [hget] at hfind
    refine ⟨hfind, ?_⟩
    simp only [dlist_delete_first_match, hfind]
    rfl
  refine ⟨key, ?_⟩
  intro e
  subst e
  exact key (fun s hs => by cases hs)

/-- Witness of C13: "durian" and "nope" on apple, banana, cherry, banana. -/
theorem no_match_changes_nothing_witness :
    WellFormed fruit 0 ∧
    (∀ s ∈ [some "apple", some "banana", some "cherry", some "banana"],
      spec_equal s (some "durian") = false) ∧
    dlist_find_first fruit (some 0) (some "durian") = some (fruit, none) ∧
    dlist_delete_first_match fruit (some 0) (some "durian") = some (fruit, 0) :=
  ⟨(by decide), (by decide),
   (no_match_changes_nothing fruit 0
    [some "apple", some "banana", some "cherry", some "banana"] (some "durian")
    (by decide) rfl).1 (by decide)⟩

/-- C14: with a `NULL` node handle `dlist_delete_node` returns 0 and leaves
the memory as it was, every header and every node, whatever the list pointer
is. -/
theorem delete_null_handle (m : Mem) (list : Ptr) :
    dlist_delete_node m list none = some (m, 0) := by
  cases list <;> rfl

/-- C15: on a well-formed list with nodes `ps`, deleting the head of a list
of two or more nodes makes the second node the head, with no prev link, and
keeps the tail; deleting the tail makes the node before it the tail, with no
next link, and keeps the head; deleting the node of a one-element list leaves
head and tail `NULL`; each time the result is well-formed, its backward
traversal being the reverse of its forward traversal. -/
theorem endpoint_deletion (m : Mem) (lp : Nat) (l : DList) (ps : List Nat)
    (hw : WellFormed m lp) (hl : m.list lp = some l)
    (hp : forward_nodes m lp = some ps) :
    (∀ h s rest, ps = h :: s :: rest →
      ∃ m2 l2 nd, dlist_delete_node m (some lp) (some h) = some (m2, 1) ∧
        m2.list lp = some l2 ∧ l.head = some h ∧ l2.head = some s ∧ l2.tail = l.tail ∧
        m2.node s = some nd ∧ nd.prev = none ∧ WellFormed m2 lp ∧
        forward_nodes m2 lp = some (s :: rest) ∧
        backward_nodes m2 lp = some (s :: rest).reverse) ∧
    (∀ front p t, ps = front ++ [p, t] →
      ∃ m2 l2 nd, dlist_delete_node m (some lp) (some t) = some (m2, 1) ∧
        m2.list lp = some l2 ∧ l.tail = some t ∧ l2.tail = some p ∧ l2.head = l.head ∧
        m2.node p = some nd ∧ nd.next = none ∧ WellFormed m2 lp ∧
        forward_nodes m2 lp = some (front ++ [p]) ∧
        backward_nodes m2 lp = some (front ++ [p]).reverse) ∧
    (∀ a, ps = [a] →
      ∃ m2 l2, dlist_delete_node m (some lp) (some a) = some (m2, 1) ∧
        m2.list lp = some l2 ∧ l2.head = none ∧ l2.tail = none ∧ l2.size = 0 ∧
        WellFormed m2 lp ∧ forward_nodes m2 lp = some [] ∧
        backward_nodes m2 lp = some []) := by
  have hc := chain_of_forward hw hp
  refine ⟨?_, ?_, ?_⟩
  · intro h s rest e
    subst e
    obtain ⟨hh, ht, _⟩ := chain_ends hl hc
    have hc0 : Chain m lp ([] ++ h :: (s :: rest)) := hc
    obtain ⟨m2, l2, hrun, hc2, hl2, _, _, _⟩ := delete_node_spec hl hc0
    rw [List.nil_append] at hc2
    obtain ⟨hh2, ht2, _⟩ := chain_ends hl2 hc2
    obtain ⟨nd, hnd, hprev⟩ := chain_first_prev hc2
    refine ⟨m2, l2, nd, hrun, hl2, hh, hh2, ?_, hnd, hprev, hc2.wellFormed,
      hc2.forward_nodes, hc2.backward_nodes⟩
    rw [ht2, ht, List.getLast?_cons_cons]
  · intro front p t e
    subst e
    obtain ⟨hh, ht, _⟩ := chain_ends hl hc
    have e1 : front ++ [p, t] = (front ++ [p]) ++ t :: [] := by simp
    rw [e1] at hc ht hh
    obtain ⟨m2, l2, hrun, hc2, hl2, _, _, _⟩ := delete_node_spec hl hc
    rw [List.append_nil] at hc2
    obtain ⟨hh2, ht2, _⟩ := chain_ends hl2 hc2
    obtain ⟨nd, hnd, hnext⟩ := chain_last_next hc2
    refine ⟨m2, l2, nd, hrun, hl2, ?_, ?_, ?_, hnd, hnext, hc2.wellFormed,
      hc2.forward_nodes, hc2.backward_nodes⟩
    · rw [ht, List.getLast?_concat]
    · rw [ht2, List.getLast?_concat]
    · rw [hh2, hh]
      cases front <;> rfl
  · intro a e
    subst e
    have hc0 : Chain m lp ([] ++ a :: []) := hc
    obtain ⟨m2, l2, hrun, hc2, hl2, _, _, _⟩ := delete_node_spec hl hc0
    have hc3 : Chain m2 lp [] := hc2
    obtain ⟨hh2, ht2, hs2⟩ := chain_ends hl2 hc3
    exact ⟨m2, l2, hrun, hl2, hh2, ht2, hs2, hc3.wellFormed, hc3.forward_nodes,
      hc3.backward_nodes⟩

/-- Witness of C15: the head and the tail of apple, banana, cherry, banana,
and the only node of a one-element list. -/
theorem endpoint_deletion_witness :
    WellFormed fruit 0 ∧
    (∃ m2 l2 nd, dlist_delete_node fruit (some 0) (some 0) = some (m2, 1) ∧
      m2.list 0 = some l2 ∧ (some 0 : Ptr) = some 0 ∧ l2.head = some 1 ∧
      l2.tail = some 3 ∧ m2.node 1 = some nd ∧ nd.prev = none ∧ WellFormed m2 0 ∧
      forward_nodes m2 0 = some [1, 2, 3] ∧ backward_nodes m2 0 = some [1, 2, 3].reverse) ∧
    (∃ m2 l2 nd, dlist_delete_node fruit (some 0) (some 3) = some (m2, 1) ∧
      m2.list 0 = some l2 ∧ (some 3 : Ptr) = some 3 ∧ l2.tail = some 2 ∧
      l2.head = some 0 ∧ m2.node 2 = some nd ∧ nd.next = none ∧ WellFormed m2 0 ∧
      forward_nodes m2 0 = some ([0, 1] ++ [2]) ∧
      backward_nodes m2 0 = some ([0, 1] ++ [2]).reverse) ∧
    WellFormed two_lists 1 ∧
    (∃ m2 l2, dlist_delete_node two_lists (some 1) (some 1) = some (m2, 1) ∧
      m2.list 1 = some l2 ∧ l2.head = none ∧ l2.tail = none ∧ l2.size = 0 ∧
      WellFormed m2 1 ∧ forward_nodes m2 1 = some [] ∧ backward_nodes m2 1 = some []) :=
  ⟨(by decide),
   (endpoint_deletion fruit 0 ⟨some 0, some 3, 4⟩ [0, 1, 2, 3] (by decide) rfl rfl).1
     0 1 [2, 3] rfl,
   (endpoint_deletion fruit 0 ⟨some 0, some 3, 4⟩ [0, 1, 2, 3] (by decide) rfl rfl).2.1
     [0, 1] 2 3 rfl,
   (by decide),
   (endpoint_deletion two_lists 1 ⟨some 1, some 1, 1⟩ [1] (by decide) rfl rfl).2.2 1 rfl⟩

/-- C16: a list built by appending `v1, ..., vn` to a freshly initialised
list is drained by `dlist_delete_first_match` on any ordering `ws` of those
values: every call returns 1, the list ends with head and tail `NULL` and
size 0, and a further `dlist_delete_first_match` on any value returns 0. -/
theorem exhaustive_drain (malloc : Allocator) (hm : malloc.Fresh) (m0 : Mem) (lp : Nat)
    (vs ws : List (Option String)) (hl : (m0.list lp).isSome) (hperm : ws.Perm vs) :
    ∃ m1 m2 m3, dlist_init m0 (some lp) = some m1 ∧
      append_all malloc m1 (some lp) vs = some m2 ∧
      drain m2 (some lp) ws = some (m3, List.replicate ws.length 1) ∧
      m3.list lp = some ⟨none, none, 0⟩ ∧
      ∀ x, dlist_delete_first_match m3 (some lp) x = some (m3, 0) := by
  obtain ⟨l0, hl0⟩ := Option.isSome_iff_exists.mp hl
  obtain ⟨hinit, hc⟩ := init_spec hl0
  obtain ⟨m2, qs, hrun, hc2, hqs, _⟩ := append_all_chain hm lp vs _ [] hc
  rw [List.nil_append] at hc2
  have hv2 : forward_values m2 lp = some vs := by rw [hc2.forward_values, hqs]
  obtain ⟨m3, hdrain, hw3, hv3⟩ := drain_spec lp ws m2 vs hc2.wellFormed hv2 hperm
  obtain ⟨hl3, hnone⟩ := empty_list_facts hw3 hv3
  exact ⟨_, m2, m3, hinit, hrun, hdrain, hl3, hnone⟩

/-- Witness of C16: apple, banana, cherry, banana drained in the order banana,
apple, banana, cherry. -/
theorem exhaustive_drain_witness :
    [some "banana", some "apple", some "banana", some "cherry"].Perm
      [some "apple", some "banana", some "cherry", some "banana"] ∧
    ∃ m1 m2 m3, dlist_init blank (some 0) = some m1 ∧
      append_all first_fit m1 (some 0)
        [some "apple", some "banana", some "cherry", some "banana"] = some m2 ∧
      drain m2 (some 0) [some "banana", some "apple", some "banana", some "cherry"] =
        some (m3, List.replicate
          [some "banana", some "apple", some "banana", some "cherry"].length 1) ∧
      m3.list 0 = some ⟨none, none, 0⟩ ∧
      ∀ x, dlist_delete_first_match m3 (some 0) x = some (m3, 0) :=
  ⟨(by decide),
   exhaustive_drain first_fit first_fit_fresh blank 0
    [some "apple", some "banana", some "cherry", some "banana"]
    [some "banana", some "apple", some "banana", some "cherry"] rfl (by decide)⟩

/-- C17: on a well-formed list with nodes `ps`, `dlist_delete_node` on a
member `b` returns 1 and leaves a well-formed list in which `b` is no longer a
node and every other node of `ps` still is, with the value it had; so the
value of every other node is still found, and the value of `b` is no longer
found when no other node holds it.  On A, B, C with the handle of B deleted
the size is 2, "B" is not found, "A" and "C" are found. -/
theorem delete_node_frame (m : Mem) (lp : Nat) (ps : List Nat) (b : Nat)
    (hw : WellFormed m lp) (hp : forward_nodes m lp = some ps) (hb : b ∈ ps) :
    (∃ m2 ps2, dlist_delete_node m (some lp) (some b) = some (m2, 1) ∧
      WellFormed m2 lp ∧ forward_nodes m2 lp = some ps2 ∧ b ∉ ps2 ∧
      (∀ c ∈ ps2, c ∈ ps) ∧
      (∀ c ∈ ps, c ≠ b → c ∈ ps2 ∧ text m2 c = text m c) ∧
      (∀ c ∈ ps, c ≠ b →
        ∃ r, r ∈ ps2 ∧ dlist_find_first m2 (some lp) (text m c) = some (m2, some r)) ∧
      ((∀ c ∈ ps, c ≠ b → spec_equal (text m c) (text m b) = false) →
        dlist_find_first m2 (some lp) (text m b) = some (m2, none))) ∧
    WellFormed abc 0 ∧ forward_nodes abc 0 = some [0, 1, 2] ∧
    ∃ m3, dlist_delete_node abc (some 0) (some 1) = some (m3, 1) ∧
      (m3.list 0).map DList.size = some 2 ∧
      dlist_find_first m3 (some 0) (some "B") = some (m3, none) ∧
      dlist_find_first m3 (some 0) (some "A") = some (m3, some 0) ∧
      dlist_find_first m3 (some 0) (some "C") = some (m3, some 2) := by
  refine ⟨?_, by decide, by decide, _, rfl, rfl, rfl, rfl, rfl⟩
  have hc := chain_of_forward hw hp
  obtain ⟨front, back, e⟩ := List.append_of_mem hb
  subst e
  have hnodup : (front ++ b :: back).Nodup := by
    obtain ⟨_, _, hf, _, _⟩ := hc
    exact lseg_nodup hf
  have hnb : b ∉ front ++ back := by
    intro hmem
    rcases List.mem_append.mp hmem with h1 | h1
    · exact (List.nodup_append.mp hnodup).2.2 h1 (List.mem_cons_self b back)
    · exact (List.nodup_cons.mp (List.nodup_append.mp hnodup).2.1).1 h1
  have hkeep : ∀ c ∈ front ++ b :: back, c ≠ b → c ∈ front ++ back := by
    intro c hcm hne
    rcases List.mem_append.mp hcm with h1 | h1
    · exact List.mem_append_left _ h1
    · rcases List.mem_cons.mp h1 with h2 | h2
      · exact absurd h2 hne
      · exact List.mem_append_right _ h2
  obtain ⟨l, hl, hrest⟩ := hc
  obtain ⟨m2, l2, hrun, hc2, _, _, _, htxt⟩ := delete_node_spec hl ⟨l, hl, hrest⟩
  refine ⟨m2, front ++ back, hrun, hc2.wellFormed, hc2.forward_nodes, hnb, ?_, ?_, ?_, ?_⟩
  · intro c hcm
    rcases List.mem_append.mp hcm with h1 | h1
    · exact List.mem_append_left _ h1
    · exact List.mem_append_right _ (List.mem_cons_of_mem b h1)
  · intro c hcm hne
    exact ⟨hkeep c hcm hne, htxt c hne⟩
  · intro c hcm hne
    exact find_first_some_of_chain hc2 _ (hkeep c hcm hne) (htxt c hne)
  · intro hno
    apply find_first_none_of_chain hc2
    intro c hcm
    have hne : c ≠ b := fun e => hnb (e ▸ hcm)
    have hin : c ∈ front ++ b :: back := by
      rcases List.mem_append.mp hcm with h1 | h1
      · exact List.mem_append_left _ h1
      · exact List.mem_append_right _ (List.mem_cons_of_mem b h1)
    rw [htxt c hne]
    exact hno c hin hne

/-- Witness of C17: the handle of B, node 1, in the list A, B, C. -/
theorem delete_node_frame_witness :
    WellFormed abc 0 ∧ (1 : Nat) ∈ [0, 1, 2] ∧
    ∃ m2 ps2, dlist_delete_node abc (some 0) (some 1) = some (m2, 1) ∧
      WellFormed m2 0 ∧ forward_nodes m2 0 = some ps2 ∧ 1 ∉ ps2 ∧
      (∀ c ∈ ps2, c ∈ [0, 1, 2]) ∧
      (∀ c ∈ [0, 1, 2], c ≠ 1 → c ∈ ps2 ∧ text m2 c = text abc c) ∧
      (∀ c ∈ [0, 1, 2], c ≠ 1 →
        ∃ r, r ∈ ps2 ∧ dlist_find_first m2 (some 0) (text abc c) = some (m2, some r)) ∧
      ((∀ c ∈ [0, 1, 2], c ≠ 1 → spec_equal (text abc c) (text abc 1) = false) →
        dlist_find_first m2 (some 0) (text abc 1) = some (m2, none)) :=
  ⟨(by decide), (by decide),
   (delete_node_frame abc 0 [0, 1, 2] 1 (by decide) rfl (by decide)).1⟩

/-- C18: on a well-formed list with nodes `ps`, `dlist_insert_tail` followed
by `dlist_delete_node` on the node it returned returns 1 and gives back the
header (head, tail, size) and every node of `ps` (value, prev, next) as they
were before the append; the cell of the new node is free again. -/
theorem append_delete_round_trip (malloc : Allocator) (hm : malloc.Fresh) (m : Mem)
    (lp : Nat) (l : DList) (ps : List Nat) (v : Option String) (hw : WellFormed m lp)
    (hl : m.list lp = some l) (hp : forward_nodes m lp = some ps) :
    ∃ m1 h m2, dlist_insert_tail malloc m (some lp) v = some (m1, some h) ∧
      dlist_delete_node m1 (some lp) (some h) = some (m2, 1) ∧
      m2.list lp = some l ∧ (∀ a ∈ ps, m2.node a = m.node a) ∧
      m.node h = none ∧ m2.node h = none ∧
      WellFormed m2 lp ∧ forward_nodes m2 lp = some ps := by
  have hc := chain_of_forward hw hp
  obtain ⟨m1, hrun1, hc1, hl1, _, _, htxt1⟩ := insert_tail_spec hm hl hc v
  have hc1b : Chain m1 lp (ps ++ malloc m.nodes :: []) := hc1
  obtain ⟨m2, l2, hrun2, hc2, _, _, hfree, htxt2⟩ := delete_node_spec hl1 hc1b
  rw [List.append_nil] at hc2
  have hnot : malloc m.nodes ∉ ps := by
    intro hmem
    obtain ⟨_, _, hf, _, _⟩ := hc
    obtain ⟨nd, hnd⟩ := lseg_live hf hmem
    have hfresh : m.node (malloc m.nodes) = none := hm m.nodes
    rw [hfresh] at hnd
    cases hnd
  have htxt : ∀ a ∈ ps, text m2 a = text m a := by
    intro a ha
    have hne : a ≠ malloc m.nodes := fun e => hnot (e ▸ ha)
    rw [htxt2 a hne, htxt1 a ha]
  obtain ⟨hlist, hnodes⟩ := chain_nodes_eq hc hc2 htxt
  exact ⟨m1, malloc m.nodes, m2, hrun1, hrun2, by rw [hlist, hl], hnodes, hm m.nodes, hfree,
    hc2.wellFormed, hc2.forward_nodes⟩

/-- Witness of C18: appending "durian" to apple, banana, cherry, banana and
deleting the node returned. -/
theorem append_delete_round_trip_witness :
    WellFormed fruit 0 ∧
    ∃ m1 h m2, dlist_insert_tail first_fit fruit (some 0) (some "durian") =
        some (m1, some h) ∧
      dlist_delete_node m1 (some 0) (some h) = some (m2, 1) ∧
      m2.list 0 = some ⟨some 0, some 3, 4⟩ ∧
      (∀ a ∈ [0, 1, 2, 3], m2.node a = fruit.node a) ∧
      fruit.node h = none ∧ m2.node h = none ∧
      WellFormed m2 0 ∧ forward_nodes m2 0 = some [0, 1, 2, 3] :=
  ⟨(by decide),
   append_delete_round_trip first_fit first_fit_fresh fruit 0 ⟨some 0, some 3, 4⟩
    [0, 1, 2, 3] (some "durian") (by decide) rfl rfl⟩

/-- C19: on a well-formed list of size `n` with nodes `ps`, the loop of
`dlist_find_first` ends after visiting at most `n` nodes (so `n + 1` tests of
the loop condition are always enough), and what it returns is `NULL` or a node
of `ps`; `dlist_delete_first_match` hands exactly that result to
`dlist_delete_node`, so it never gives it a node of another list. -/
theorem find_first_stays_in_list (m : Mem) (lp : Nat) (l : DList) (ps : List Nat)
    (v : Option String) (hw : WellFormed m lp) (hl : m.list lp = some l)
    (hp : forward_nodes m lp = some ps) :
    l.size = ps.length ∧
    (∃ k, find_visits m v (m.nodes.length + 1) l.head = some k ∧ k ≤ l.size) ∧
    ∃ r, (∀ fuel, l.size < fuel → find_loop m v fuel l.head = some r) ∧
      dlist_find_first m (some lp) v = some (m, r) ∧
      (r = none ∨ ∃ a ∈ ps, r = some a) ∧
      dlist_delete_first_match m (some lp) v = dlist_delete_node m (some lp) r := by
  have hc := chain_of_forward hw hp
  have hfind := find_first_chain hc v
  obtain ⟨l0, hl0, hf, _, hs⟩ := hc
  rw [hl] at hl0
  cases hl0
  refine ⟨hs, ?_, _, ?_, hfind, ?_, ?_⟩
  · rw [hs]
    exact find_visits_lseg v hf (Nat.lt_succ_of_le (lseg_length_le hf))
  · intro fuel hfuel
    exact find_loop_lseg v hf (by omega)
  · cases hr : ps[(ps.map (text m)).findIdx (fun s => spec_equal s v)]? with
    | none => exact Or.inl rfl
    | some a => exact Or.inr ⟨a, List.getElem?_mem hr, rfl⟩
  · simp only [dlist_delete_first_match, hfind]

/-- Witness of C19: the search for "cherry" in apple, banana, cherry, banana. -/
theorem find_first_stays_in_list_witness :
    WellFormed fruit 0 ∧ (4 : Nat) = [0, 1, 2, 3].length ∧
    (∃ k, find_visits fruit (some "cherry") (fruit.nodes.length + 1) (some 0) = some k ∧
      k ≤ 4) ∧
    ∃ r, (∀ fuel, 4 < fuel → find_loop fruit (some "cherry") fuel (some 0) = some r) ∧
      dlist_find_first fruit (some 0) (some "cherry") = some (fruit, r) ∧
      (r = none ∨ ∃ a ∈ [0, 1, 2, 3], r = some a) ∧
      dlist_delete_first_match fruit (some 0) (some "cherry") =
        dlist_delete_node fruit (some 0) r :=
  ⟨(by decide),
   find_first_stays_in_list fruit 0 ⟨some 0, some 3, 4⟩ [0, 1, 2, 3] (some "cherry")
    (by decide) rfl rfl⟩

/-- C20: on a well-formed list, appending `v` does not change what the search
for `w` finds among the earlier nodes: a node found before is found again
after the append; when `NULL` was returned before, the search returns the new
node if `v` equals `w` under the rule of the specification, and `NULL` if it
does not. -/
theorem append_keeps_search (malloc : Allocator) (hm : malloc.Fresh) (m : Mem) (lp : Nat)
    (v w : Option String) (hw : WellFormed m lp) :
    ∃ r m2 n r2, dlist_find_first m (some lp) w = some (m, r) ∧
      dlist_insert_tail malloc m (some lp) v = some (m2, some n) ∧
      dlist_find_first m2 (some lp) w = some (m2, r2) ∧
      (r ≠ none → r2 = r) ∧
      (r = none → spec_equal v w = true → r2 = some n) ∧
      (r = none → spec_equal v w = false → r2 = none) := by
  obtain ⟨ps, hc⟩ := (wellFormed_iff_chain m lp).mp hw
  obtain ⟨l, hl, hrest⟩ := hc
  have hc : Chain m lp ps := ⟨l, hl, hrest⟩
  obtain ⟨m2, hrun, hc2, _, hn2, _, htxt⟩ := insert_tail_spec hm hl hc v
  have hmap : (ps ++ [malloc m.nodes]).map (text m2) = ps.map (text m) ++ [v] := by
    have e1 : text m2 (malloc m.nodes) = v := by simp [text, hn2]
    have e2 : ps.map (text m2) = ps.map (text m) := List.map_congr_left htxt
    simp [e1, e2]
  have hfind2 := find_first_chain hc2 w
  rw [hmap, List.findIdx_append, List.length_map] at hfind2
  refine ⟨_, m2, malloc m.nodes, _, find_first_chain hc w, hrun, hfind2, ?_, ?_, ?_⟩
  · intro hne
    have hlt : (ps.map (text m)).findIdx (fun s => spec_equal s w) < ps.length := by
      by_contra hge
      exact hne (List.getElem?_eq_none (by omega))
    rw [if_pos hlt, List.getElem?_append_left hlt]
  · intro hnone hvw
    have hge : ps.length ≤ (ps.map (text m)).findIdx (fun s => spec_equal s w) :=
      List.getElem?_eq_none_iff.mp hnone
    rw [if_neg (by omega)]
    simp [List.findIdx_cons, hvw]
  · intro hnone hvw
    have hge : ps.length ≤ (ps.map (text m)).findIdx (fun s => spec_equal s w) :=
      List.getElem?_eq_none_iff.mp hnone
    rw [if_neg (by omega)]
    simp [List.findIdx_cons, hvw]
    omega

/-- Witness of C20: the search for "cherry" before and after appending
"cherry" to apple, banana, cherry, banana. -/
theorem append_keeps_search_witness :
    WellFormed fruit 0 ∧
    ∃ r m2 n r2, dlist_find_first fruit (some 0) (some "cherry") = some (fruit, r) ∧
      dlist_insert_tail first_fit fruit (some 0) (some "cherry") = some (m2, some n) ∧
      dlist_find_first m2 (some 0) (some "cherry") = some (m2, r2) ∧
      (r ≠ none → r2 = r) ∧
      (r = none → spec_equal (some "cherry") (some "cherry") = true → r2 = some n) ∧
      (r = none → spec_equal (some "cherry") (some "cherry") = false → r2 = none) :=
  ⟨(by decide),
   append_keeps_search first_fit first_fit_fresh fruit 0 (some "cherry") (some "cherry")
    (by decide)⟩

end DllStrings
